import Mathlib

/-!
Shallow embedding of the Aho–Corasick text searcher in `src/textsearcher.rs`
(crate `python-comm`), together with theorems checking the specification's
claims about it.

Conventions of the embedding:
* Rust `AHashMap`/`HashMap` values are modelled as association lists whose
  lookup returns the first matching key (the builder only ever inserts a key
  that is absent, so keys stay unique and the model agrees with a hash map).
* Rust `usize` arithmetic is modelled with `Nat` (truncated subtraction; no
  subtraction in this module underflows on automatons built by the module).
* The inner stepping loops of `match_`, `match_line` and `subst` are not
  structurally recursive; they are modelled with an explicit fuel parameter
  and return `none` when the fuel runs out.  The canonical fuel
  `TextSearcher.stepFuel` is proved sufficient for every automaton built by
  `build` (see the termination theorems below), so `none` never occurs there.
-/

namespace PythonComm

/-- Association-list lookup, the model of `HashMap::get`. -/
def alookup {α β : Type} [DecidableEq α] : List (α × β) → α → Option β
  | [], _ => none
  | e :: rest, k => if e.1 = k then some e.2 else alookup rest k

/-- Association-list removal, the model of `HashMap::remove`. -/
def eraseKey {α β : Type} [DecidableEq α] : List (α × β) → α → List (α × β)
  | [], _ => []
  | e :: rest, k => if e.1 = k then eraseKey rest k else e :: eraseKey rest k

/-- Association-list insertion, the model of `HashMap::insert`. -/
def insertKey {α β : Type} [DecidableEq α] (l : List (α × β)) (k : α) (v : β) :
    List (α × β) :=
  (k, v) :: eraseKey l k

/-- `KeywordNode` of `textsearcher.rs`: one node of the keyword trie. -/
structure KeywordNode where
  letters : List Char
  length : Nat
  name : String
  is_blue : Bool
deriving DecidableEq, Repr

/-- `KeywordNode::new`. -/
def KeywordNode.new (letters : List Char) : KeywordNode :=
  { letters := letters, length := letters.length, name := "", is_blue := false }

/-- `TextSearcher`: trie nodes (1-based ids), black arrows, blue arrows. -/
structure TextSearcher where
  nodes : List KeywordNode
  blacks : List ((Nat × Char) × Nat)
  blues : List (Nat × Nat)
deriving DecidableEq

/-- `TextSearcher::new`. -/
def TextSearcher.new : TextSearcher :=
  { nodes := [KeywordNode.new []], blacks := [], blues := [] }

/-- Node with 1-based id `i` (`self.nodes[i - 1]` in the source). -/
def TextSearcher.node (ts : TextSearcher) (i : Nat) : KeywordNode :=
  ts.nodes.getD (i - 1) (KeywordNode.new [])

/-- The character-walking loop of `TextSearcher::add_keyword`. -/
def addKeywordLoop (ts : TextSearcher) (nodeId : Nat) (letters : List Char) :
    List Char → TextSearcher × Nat
  | [] => (ts, nodeId)
  | c :: rest =>
    match alookup ts.blacks (nodeId, c) with
    | some nextId => addKeywordLoop ts nextId (letters ++ [c]) rest
    | none =>
      let nodes' := ts.nodes ++ [KeywordNode.new (letters ++ [c])]
      let nextId := nodes'.length
      addKeywordLoop
        { ts with nodes := nodes', blacks := ts.blacks ++ [((nodeId, c), nextId)] }
        nextId (letters ++ [c]) rest

/-- `TextSearcher::add_keyword`. -/
def TextSearcher.add_keyword (ts : TextSearcher) (keyword : String)
    (name : Option String) : TextSearcher :=
  let r := addKeywordLoop ts 1 [] keyword.toList
  let ts' := r.1
  let nodeId := r.2
  let old := ts'.nodes.getD (nodeId - 1) (KeywordNode.new [])
  { ts' with
    nodes := ts'.nodes.set (nodeId - 1)
      { old with is_blue := true, name := name.getD keyword } }

/-- The walking loop of `TextSearcher::get_node_by_keyword` (start node
explicit). -/
def getNodeAux (blacks : List ((Nat × Char) × Nat)) (nodeId : Nat) :
    List Char → Nat
  | [] => nodeId
  | c :: rest =>
    match alookup blacks (nodeId, c) with
    | some nextId => getNodeAux blacks nextId rest
    | none => 0

/-- `TextSearcher::get_node_by_keyword`. -/
def TextSearcher.get_node_by_keyword (ts : TextSearcher) (keyword : List Char) :
    Nat :=
  getNodeAux ts.blacks 1 keyword

/-- The proper-suffix search of `TextSearcher::create_blues`: try the given
suffix, then successively shorter ones, never the empty one; return the first
that resolves to a node. -/
def findSuffixAux (blacks : List ((Nat × Char) × Nat)) :
    List Char → Option Nat
  | [] => none
  | c :: rest =>
    let t := getNodeAux blacks 1 (c :: rest)
    if t ≠ 0 then some t else findSuffixAux blacks rest

/-- One iteration of the `create_blues` loop for node id `nodeId`: take the
node's letters (clearing them, keeping only `length`), and record a blue arrow
to the node of the longest proper suffix present in the trie, if any. -/
def createBluesStep (ts : TextSearcher) (nodeId : Nat) : TextSearcher :=
  let old := ts.nodes.getD (nodeId - 1) (KeywordNode.new [])
  let letters := old.letters
  let ts' := { ts with nodes := ts.nodes.set (nodeId - 1) { old with letters := [] } }
  match findSuffixAux ts'.blacks (letters.drop 1) with
  | some t => { ts' with blues := ts'.blues ++ [(nodeId, t)] }
  | none => ts'

/-- `TextSearcher::create_blues`. -/
def TextSearcher.create_blues (ts : TextSearcher) : TextSearcher :=
  (List.range ts.nodes.length).foldl (fun acc i => createBluesStep acc (i + 1)) ts

/-- `TextSearcher::move_front`: follow a black arrow (consuming the letter),
else a blue arrow, else fall back to the root. -/
def TextSearcher.move_front (ts : TextSearcher) (nodeId : Nat) (letter : Char) :
    Nat × Bool :=
  match alookup ts.blacks (nodeId, letter) with
  | some nextId => (nextId, true)
  | none =>
    match alookup ts.blues nodeId with
    | some nextId => (nextId, false)
    | none => (1, decide (nodeId = 1))

/-- A match event `(name, start, end)` as returned by the matcher. -/
abbrev Ev : Type := String × Nat × Nat

/-- The inner `loop` of `TextSearcher::match_` for one input character:
step until a step consumes the character, collecting the events emitted at
blue nodes along the way.  `fuel` bounds the number of steps. -/
def stepChar (ts : TextSearcher) : Nat → Nat → Nat → Char → Option (Nat × List Ev)
  | 0, _, _, _ => none
  | fuel + 1, nodeId, posy, letter =>
    let r := ts.move_front nodeId letter
    let nid := r.1
    let used := r.2
    let node := ts.node nid
    let evs : List Ev :=
      if node.is_blue then
        if used then [(node.name, posy - node.length, posy)]
        else [(node.name, posy - node.length - 1, posy - 1)]
      else []
    if used then some (nid, evs)
    else
      match stepChar ts fuel nid posy letter with
      | some p => some (p.1, evs ++ p.2)
      | none => none

/-- The outer character loop of `TextSearcher::match_`. -/
def matchAux (ts : TextSearcher) (fuel : Nat) :
    List Char → Nat → Nat → Option (List Ev)
  | [], _, _ => some []
  | c :: rest, nodeId, posy =>
    match stepChar ts fuel nodeId (posy + 1) c with
    | some p =>
      match matchAux ts fuel rest p.1 (posy + 1) with
      | some more => some (p.2 ++ more)
      | none => none
    | none => none

/-- The largest `length` field over all nodes. -/
def maxNodeLen (ts : TextSearcher) : Nat :=
  ts.nodes.foldr (fun nd m => max nd.length m) 0

/-- Canonical fuel for the inner stepping loop: on a built automaton every
blue arrow strictly decreases the node length, so this many steps always
reach a consuming step. -/
def TextSearcher.stepFuel (ts : TextSearcher) : Nat :=
  maxNodeLen ts + 2

/-- `TextSearcher::match_` (whole-text mode).  `none` models non-termination
of the source's inner loop, which cannot happen on built automatons. -/
def TextSearcher.match_ (ts : TextSearcher) (text : String) : Option (List Ev) :=
  matchAux ts ts.stepFuel text.toList 1 0

/-- The inner `loop` of `TextSearcher::match_line` for one character: same
stepping as `stepChar` but overwriting the single `found` slot. -/
def stepCharLine (ts : TextSearcher) :
    Nat → Nat → Nat → Char → (Bool × Nat × Nat) → Option (Nat × (Bool × Nat × Nat))
  | 0, _, _, _, _ => none
  | fuel + 1, nodeId, posy, letter, found =>
    let r := ts.move_front nodeId letter
    let nid := r.1
    let used := r.2
    let node := ts.node nid
    let found' :=
      if node.is_blue then
        if used then (true, posy - node.length, posy)
        else (true, posy - node.length - 1, posy - 1)
      else found
    if used then some (nid, found')
    else stepCharLine ts fuel nid posy letter found'

/-- The outer character loop of `TextSearcher::match_line`, carrying the
accumulated output `names`, the current line text `name`, the `found` slot,
the current node and the in-line position. -/
def matchLineAux (ts : TextSearcher) (fuel : Nat) :
    List Char → List Ev → String → (Bool × Nat × Nat) → Nat → Nat → Option (List Ev)
  | [], names, name, found, _, _ =>
    some (if found.1 then names ++ [(name, found.2.1, found.2.2)] else names)
  | c :: rest, names, name, found, nodeId, posy =>
    if c = '\r' ∨ c = '\n' then
      let names' := if found.1 then names ++ [(name, found.2.1, found.2.2)] else names
      matchLineAux ts fuel rest names' "" (false, 0, 0) 1 0
    else
      match stepCharLine ts fuel nodeId (posy + 1) c found with
      | some p => matchLineAux ts fuel rest names (name.push c) p.2 p.1 (posy + 1)
      | none => none

/-- `TextSearcher::match_line` (line-scoped mode). -/
def TextSearcher.match_line (ts : TextSearcher) (text : String) :
    Option (List Ev) :=
  matchLineAux ts ts.stepFuel text.toList [] "" (false, 0, 0) 1 0

/-- `for i in a..b { result.0.push(letters[i]) }` of `TextSearcher::subst`. -/
def pushRangeAux (letters : List Char) : String → Nat → Nat → String
  | s, _, 0 => s
  | s, i, cnt + 1 => pushRangeAux letters (s.push (letters.getD i (Char.ofNat 0))) (i + 1) cnt

/-- Push `letters[a..b]` onto `s`. -/
def pushRange (s : String) (letters : List Char) (a b : Nat) : String :=
  pushRangeAux letters s a (b - a)

/-- The commit step of `TextSearcher::subst` (`// 使用上一次的结果`): if the
pending candidate `lf` starts at or after the cursor, copy the uncommitted
text before it, append its name, and advance the cursor to its end. -/
def substCommit (letters : List Char) (result : String × Nat)
    (lf : String × Nat × Nat) : String × Nat :=
  if lf.2.1 ≥ result.2 then
    (pushRange result.1 letters result.2 lf.2.1 ++ lf.1, lf.2.2)
  else result

/-- The inner `loop` of `TextSearcher::subst` for one character, carrying the
`(result, last_found)` state. -/
def substChar (ts : TextSearcher) (letters : List Char) :
    Nat → Nat → Nat → Char → ((String × Nat) × (String × Nat × Nat)) →
      Option (Nat × (String × Nat) × (String × Nat × Nat))
  | 0, _, _, _, _ => none
  | fuel + 1, nodeId, posy, letter, st =>
    let r := ts.move_front nodeId letter
    let nid := r.1
    let used := r.2
    let node := ts.node nid
    let st' :=
      if node.is_blue then
        let found : String × Nat × Nat :=
          if used then (node.name, posy - node.length, posy)
          else (node.name, posy - node.length - 1, posy - 1)
        let result' :=
          if found.2.1 ≠ st.2.2.1 then substCommit letters st.1 st.2 else st.1
        (result', found)
      else st
    if used then some (nid, st')
    else substChar ts letters fuel nid posy letter st'

/-- The outer character loop of `TextSearcher::subst`. -/
def substAux (ts : TextSearcher) (letters : List Char) (fuel : Nat) :
    List Char → Nat → Nat → ((String × Nat) × (String × Nat × Nat)) →
      Option ((String × Nat) × (String × Nat × Nat))
  | [], _, _, st => some st
  | c :: rest, nodeId, posy, st =>
    match substChar ts letters fuel nodeId (posy + 1) c st with
    | some p => substAux ts letters fuel rest p.1 (posy + 1) p.2
    | none => none

/-- `TextSearcher::subst` (substitution mode). -/
def TextSearcher.subst (ts : TextSearcher) (text : String) : Option String :=
  match substAux ts text.toList ts.stepFuel text.toList 1 0 (("", 0), ("", 0, 0)) with
  | some st =>
    let result :=
      if st.2.2.2 ≥ st.2.2.1 ∧ st.2.2.1 ≥ st.1.2 then
        (pushRange st.1.1 text.toList st.1.2 st.2.2.1 ++ st.2.1, st.2.2.2)
      else st.1
    some (pushRange result.1 text.toList result.2 text.toList.length)
  | none => none

/-- Build an automaton from a keyword list, as `new_text_searcher` and the
`text_search_*` entry points do: `new`, `add_keyword` for each pair, then
`create_blues`. -/
def build (keywords : List (String × Option String)) : TextSearcher :=
  (keywords.foldl (fun ts kw => ts.add_keyword kw.1 kw.2) TextSearcher.new).create_blues

/-- `TextSearcherForSerde`: the portable record exported by `save` and read
back by `load`.  The two transition maps appear as plain lists whose order is
whatever the hash map's iteration produced. -/
structure TextSearcherForSerde where
  nodes : List KeywordNode
  blacks : List ((Nat × Char) × Nat)
  blues : List (Nat × Nat)
deriving DecidableEq

/-- `TextSearcherForSerde::from`. -/
def TextSearcherForSerde.from_ (ts : TextSearcher) : TextSearcherForSerde :=
  { nodes := ts.nodes, blacks := ts.blacks, blues := ts.blues }

/-- `TextSearcherForSerde::to`. -/
def TextSearcherForSerde.to_ (r : TextSearcherForSerde) : TextSearcher :=
  { nodes := r.nodes, blacks := r.blacks, blues := r.blues }

/-- `TextSearcherManager`: the process-wide handle registry. -/
structure TextSearcherManager where
  count : Int
  tss : List (Int × TextSearcher)

/-- `TextSearcherManager::new`. -/
def TextSearcherManager.new : TextSearcherManager :=
  { count := 0, tss := [] }

/-- `TextSearcherManager::add_text_searcher`. -/
def TextSearcherManager.add_text_searcher (tsm : TextSearcherManager)
    (tsid : Int) (ts : TextSearcher) : TextSearcherManager :=
  { tsm with tss := insertKey tsm.tss tsid ts }

/-- The error message raised for an unknown handle
(`指定的 TextSearcher={} 无效`). -/
def invalidHandleMsg (tsid : Int) : String :=
  "指定的 TextSearcher=" ++ toString tsid ++ " 无效"

/-- `TextSearcherManager::get_text_searcher`: remove and return the entry,
or fail with `invalidHandleMsg` if the handle is absent. -/
def TextSearcherManager.get_text_searcher (tsm : TextSearcherManager)
    (tsid : Int) : TextSearcherManager × Except String TextSearcher :=
  match alookup tsm.tss tsid with
  | some ts => ({ tsm with tss := eraseKey tsm.tss tsid }, Except.ok ts)
  | none => (tsm, Except.error (invalidHandleMsg tsid))

/-- `TextSearcherManager::remove_text_searcher`. -/
def TextSearcherManager.remove_text_searcher (tsm : TextSearcherManager)
    (tsid : Int) : TextSearcherManager :=
  { tsm with tss := eraseKey tsm.tss tsid }

/-- `TextSearcherManager::new_text_searcher`: build, finalize and register a
new automaton under the next handle. -/
def TextSearcherManager.new_text_searcher (tsm : TextSearcherManager)
    (keywords : List (String × Option String)) : TextSearcherManager × Int :=
  let count' := tsm.count + 1
  ({ count := count', tss := insertKey tsm.tss count' (build keywords) }, count')

/-- `text_search_ex_free`: drop the entry (no error if absent), return 0. -/
def text_search_ex_free (tsm : TextSearcherManager) (tsid : Int) :
    TextSearcherManager × Except String Int :=
  (tsm.remove_text_searcher tsid, Except.ok 0)

/-- `text_search_ex_init`. -/
def text_search_ex_init (tsm : TextSearcherManager)
    (keywords : List (String × Option String)) :
    TextSearcherManager × Except String Int :=
  let r := tsm.new_text_searcher keywords
  (r.1, Except.ok r.2)

/-- `text_search_ex_match`: check the automaton out, run `match_line` when
`option = "l"` else `match_`, put it back. -/
def text_search_ex_match (tsm : TextSearcherManager) (tsid : Int)
    (text : String) (option : String) :
    TextSearcherManager × Except String (Option (List Ev)) :=
  match tsm.get_text_searcher tsid with
  | (tsm', Except.error e) => (tsm', Except.error e)
  | (tsm', Except.ok ts) =>
    let result := if option = "l" then ts.match_line text else ts.match_ text
    (tsm'.add_text_searcher tsid ts, Except.ok result)

/-- `text_search_ex_subst`: check the automaton out, run `subst`, put it
back. -/
def text_search_ex_subst (tsm : TextSearcherManager) (tsid : Int)
    (text : String) : TextSearcherManager × Except String (Option String) :=
  match tsm.get_text_searcher tsid with
  | (tsm', Except.error e) => (tsm', Except.error e)
  | (tsm', Except.ok ts) =>
    let result := ts.subst text
    (tsm'.add_text_searcher tsid ts, Except.ok result)

/-- The per-node data that `create_blues` leaves unchanged (it only clears
`letters`). -/
def skel (nd : KeywordNode) : Nat × Bool × String :=
  (nd.length, nd.is_blue, nd.name)

/-- The per-node data that marking a node terminal leaves unchanged. -/
def pathData (nd : KeywordNode) : List Char × Nat :=
  (nd.letters, nd.length)

/-- Clearing the letters of a node, as `take(&mut ...)` does. -/
def clearLetters (nd : KeywordNode) : KeywordNode :=
  { nd with letters := [] }

/-- Invariant of the builder state: holds for `TextSearcher.new` and is
preserved by `add_keyword`.  Letters record the black path from the root,
`length` caches their count, and no blue arrow exists yet. -/
structure WFBuild (ts : TextSearcher) : Prop where
  root_le : 1 ≤ ts.nodes.length
  root_letters : (ts.node 1).letters = []
  black_src : ∀ e ∈ ts.blacks, 1 ≤ e.1.1 ∧ e.1.1 ≤ ts.nodes.length
  black_tgt : ∀ e ∈ ts.blacks, 1 ≤ e.2 ∧ e.2 ≤ ts.nodes.length
  black_letters : ∀ e ∈ ts.blacks,
    (ts.node e.2).letters = (ts.node e.1.1).letters ++ [e.1.2]
  len_eq : ∀ nd ∈ ts.nodes, nd.length = nd.letters.length
  blues_nil : ts.blues = []

/-- What `create_blues` guarantees about each blue arrow it records, stated
against the pre-finalize state `ts`: both ends are valid node ids and the
target's letter path is strictly shorter than the source's. -/
def BlueOk (ts : TextSearcher) (e : Nat × Nat) : Prop :=
  1 ≤ e.1 ∧ e.1 ≤ ts.nodes.length ∧ 1 ≤ e.2 ∧ e.2 ≤ ts.nodes.length ∧
  (ts.node e.2).letters.length < (ts.node e.1).letters.length

/-- Invariant of a finalized automaton (`create_blues` applied to a
well-formed builder state): black arrows increase the node length by one and
blue arrows strictly decrease it, which bounds the matcher's inner loop. -/
structure WFFinal (ts : TextSearcher) : Prop where
  root_le : 1 ≤ ts.nodes.length
  root_len : (ts.node 1).length = 0
  black_tgt : ∀ e ∈ ts.blacks, 1 ≤ e.2 ∧ e.2 ≤ ts.nodes.length
  black_len : ∀ e ∈ ts.blacks,
    (ts.node e.2).length = (ts.node e.1.1).length + 1
  blue_tgt : ∀ e ∈ ts.blues, 1 ≤ e.2 ∧ e.2 ≤ ts.nodes.length
  blue_len : ∀ e ∈ ts.blues, (ts.node e.2).length < (ts.node e.1).length

/-- A match event is justified by a terminal node: some blue node of the
automaton carries the event's name, and the event spans exactly that node's
length (`start + length = end`, with no truncation). -/
def EvWitness (ts : TextSearcher) (ev : Ev) : Prop :=
  ∃ nd ∈ ts.nodes, nd.is_blue = true ∧ nd.name = ev.1 ∧ ev.2.1 + nd.length = ev.2.2

/-- Behavioural interchangeability of two searcher values: same node array
and extensionally equal black- and blue-transition maps.  Two imports of the
same exported record in different list orders satisfy this. -/
def SameMaps (a b : TextSearcher) : Prop :=
  a.nodes = b.nodes ∧
  (∀ k, alookup a.blacks k = alookup b.blacks k) ∧
  (∀ j, alookup a.blues j = alookup b.blues j)

/-! ### Reference functions for the single-keyword automaton (claim C4)

For a single keyword the trie is a bare path, the blue links realize the
classical KMP failure function, and the matcher state tracks the longest
suffix of the consumed text that is a prefix of the keyword.  The following
computable reference functions express these quantities directly. -/

/-- The builder state reached after walking the single keyword `kl` into an
empty trie: one node per prefix (1-based ids along the path) and one black
arrow per character. -/
def stateOf (kl : List Char) : TextSearcher :=
  { nodes := KeywordNode.new [] ::
      (List.range kl.length).map (fun i => KeywordNode.new (kl.take (i + 1))),
    blacks := (List.range kl.length).map
      (fun i => ((i + 1, kl.getD i (Char.ofNat 0)), i + 2)),
    blues := [] }

/-- The searcher after `new().add_keyword(k, None)`: the path trie of
`stateOf` with the last node marked terminal and named `k`. -/
def singleAdded (k : String) : TextSearcher :=
  { nodes := (stateOf k.toList).nodes.set k.toList.length
      { letters := k.toList, length := k.toList.length, name := k,
        is_blue := true },
    blacks := (stateOf k.toList).blacks,
    blues := [] }

/-- `b` is a border length of the prefix `kl.take i`: its last `b`
characters equal the first `b` characters of `kl`. -/
def borderB (kl : List Char) (i b : Nat) : Bool :=
  decide (kl.take b = (kl.take i).drop (i - b))

/-- The KMP failure function: the longest proper border of `kl.take i`
(0 when only the empty border exists). -/
def piFn (kl : List Char) (i : Nat) : Nat :=
  Nat.findGreatest (fun b => borderB kl i b = true) (i - 1)

/-- `b` is a suffix-prefix length: the last `b` characters of the consumed
text `s` equal the first `b` characters of the keyword `kl`. -/
def spB (kl s : List Char) (b : Nat) : Bool :=
  decide (b ≤ s.length ∧ s.drop (s.length - b) = kl.take b)

/-- The matcher state of the single-keyword automaton: the length of the
longest suffix of `s` that is a prefix of `kl`. -/
def phi (kl s : List Char) : Nat :=
  Nat.findGreatest (fun b => spB kl s b = true) s.length

/-- The events the single-keyword matcher emits while scanning `rest` after
having consumed `s`: one event per position whose suffix matches the whole
keyword. -/
def kmpEvents (kl : List Char) (k : String) : List Char → List Char → List Ev
  | _, [] => []
  | s, c :: rest =>
    (if phi kl (s ++ [c]) = kl.length then
      [(k, s.length + 1 - kl.length, s.length + 1)] else []) ++
    kmpEvents kl k (s ++ [c]) rest

/-! ### The seven-keyword example automaton of the spec and the source tests -/

/-- The keyword set `{a, ab, bab, bc, bca, c, caa}`, no aliases. -/
def kws7 : List (String × Option String) :=
  [("a", none), ("ab", none), ("bab", none), ("bc", none), ("bca", none),
   ("c", none), ("caa", none)]

/-- The finalized automaton for `kws7`. -/
def ts7 : TextSearcher := build kws7

/-- The node id of a keyword in `ts7` (node identity, as in the claims). -/
def nd7 (s : String) : Nat := ts7.get_node_by_keyword s.toList

/-- The same seven keywords, each aliased as `"x{keyword}y"`. -/
def kws7x : List (String × Option String) :=
  [("a", some "xay"), ("ab", some "xaby"), ("bab", some "xbaby"),
   ("bc", some "xbcy"), ("bca", some "xbcay"), ("c", some "xcy"),
   ("caa", some "xcaay")]

/-- The finalized automaton for `kws7x`. -/
def ts7x : TextSearcher := build kws7x

/-- The finalized automaton for the keyword set `{abc, def}`. -/
def tsLine : TextSearcher := build [("abc", none), ("def", none)]

set_option maxRecDepth 8000

/-- **C1, counterexample.**  The claim lists the blue links of `ts7` as
exactly {ba→a, bab→ab, bc→c, bca→ca, ca→a, caa→a}, "with no other blue
links".  But `create_blues` also gives node(`ab`) a blue link to node(`b`)
(the longest proper suffix `b` of `ab` is a trie path), which is not in the
claimed set. -/
theorem c1_counterexample :
    alookup ts7.blues (nd7 "ab") = some (nd7 "b") ∧
    (nd7 "ab", nd7 "b") ∉
      [(nd7 "ba", nd7 "a"), (nd7 "bab", nd7 "ab"), (nd7 "bc", nd7 "c"),
       (nd7 "bca", nd7 "ca"), (nd7 "ca", nd7 "a"), (nd7 "caa", nd7 "a")] := by
  decide

/-- **C1, amended.**  After inserting `a, ab, bab, bc, bca, c, caa` (in that
order, no aliases) and running `create_blues`, the blue-link map is exactly
{ab→b, ba→a, bab→ab, bc→c, bca→ca, ca→a, caa→a} (by node identity), with no
other blue links; in particular node(`c`) has no blue link. -/
theorem c1_amended_blue_links :
    ts7.blues =
      [(nd7 "ab", nd7 "b"), (nd7 "ba", nd7 "a"), (nd7 "bab", nd7 "ab"),
       (nd7 "bc", nd7 "c"), (nd7 "bca", nd7 "ca"), (nd7 "ca", nd7 "a"),
       (nd7 "caa", nd7 "a")] ∧
    alookup ts7.blues (nd7 "c") = none := by
  decide

/-- **C2.**  With the keyword set `{a, ab, bab, bc, bca, c, caa}` (no
aliases) finalized, whole-text match on `"abccab"` terminates and returns
exactly the listed overlapping matches, in this order. -/
theorem c2_match_abccab :
    ts7.match_ "abccab" =
      some [("a", 0, 1), ("ab", 0, 2), ("bc", 1, 3), ("c", 2, 3),
            ("c", 3, 4), ("a", 4, 5), ("ab", 4, 6)] := by
  decide

/-- **C3.**  With each keyword `k` of the seven aliased as `"x{k}y"`,
substitution on `"abccab"` terminates and returns exactly
`"xabyxcyxcyxaby"`: overlapping later candidates are dropped in favour of
the earlier one. -/
theorem c3_subst_abccab : ts7x.subst "abccab" = some "xabyxcyxcyxaby" := by
  decide

/-- **C7.**  With keywords `{abc, def}` finalized, line-scoped match on
`"...\n.abc.\n\n---def---\n...\nabc"` terminates and returns exactly one
event per non-empty matching line, reporting only the last terminal node
reached in that line, with positions counted from the start of the line and
the line-boundary character excluded. -/
theorem c7_match_line :
    tsLine.match_line "...\n.abc.\n\n---def---\n...\nabc" =
      some [(".abc.", 1, 4), ("---def---", 3, 6), ("abc", 0, 3)] := by
  decide

/-! ### Lookup in a permuted association list with unique keys -/

theorem alookup_perm {α β : Type} [DecidableEq α] {l₁ l₂ : List (α × β)}
    (h : l₁.Perm l₂) (hnd : (l₁.map Prod.fst).Nodup) (k : α) :
    alookup l₁ k = alookup l₂ k := by
  induction h with
  | nil => rfl
  | cons x h ih =>
    simp only [List.map_cons, List.nodup_cons] at hnd
    simp only [alookup]
    by_cases hx : x.1 = k
    · simp [hx]
    · simp only [hx, if_false]
      exact ih hnd.2
  | swap x y l =>
    simp only [alookup]
    by_cases hy : y.1 = k <;> by_cases hx : x.1 = k
    · exfalso
      have hne : y.1 ≠ x.1 := by
        simp only [List.map_cons, List.nodup_cons, List.mem_cons] at hnd
        exact fun hcon => hnd.1 (Or.inl hcon)
      exact hne (hy.trans hx.symm)
    · simp [hy, hx]
    · simp [hy, hx]
    · simp [hy, hx]
  | trans h₁ h₂ ih₁ ih₂ =>
    rw [ih₁ hnd, ih₂ (((h₁.map Prod.fst).nodup_iff).mp hnd)]

/-! ### `SameMaps` is a behavioural congruence for all three query modes -/

theorem node_eq_of_sameMaps {a b : TextSearcher} (h : SameMaps a b) (i : Nat) :
    a.node i = b.node i := by
  unfold TextSearcher.node
  rw [h.1]

theorem move_front_eq_of_sameMaps {a b : TextSearcher} (h : SameMaps a b)
    (i : Nat) (c : Char) : a.move_front i c = b.move_front i c := by
  unfold TextSearcher.move_front
  rw [h.2.1 (i, c), h.2.2 i]

theorem stepFuel_eq_of_sameMaps {a b : TextSearcher} (h : SameMaps a b) :
    a.stepFuel = b.stepFuel := by
  unfold TextSearcher.stepFuel maxNodeLen
  rw [h.1]

theorem stepChar_eq_of_sameMaps {a b : TextSearcher} (h : SameMaps a b) :
    ∀ fuel i p c, stepChar a fuel i p c = stepChar b fuel i p c := by
  intro fuel
  induction fuel with
  | zero => intro i p c; rfl
  | succ n ih =>
    intro i p c
    simp only [stepChar, move_front_eq_of_sameMaps h, node_eq_of_sameMaps h, ih]

theorem matchAux_eq_of_sameMaps {a b : TextSearcher} (h : SameMaps a b)
    (fuel : Nat) : ∀ text i p, matchAux a fuel text i p = matchAux b fuel text i p := by
  intro text
  induction text with
  | nil => intro i p; rfl
  | cons c rest ih =>
    intro i p
    simp only [matchAux, stepChar_eq_of_sameMaps h, ih]

theorem match_eq_of_sameMaps {a b : TextSearcher} (h : SameMaps a b)
    (text : String) : a.match_ text = b.match_ text := by
  unfold TextSearcher.match_
  rw [stepFuel_eq_of_sameMaps h, matchAux_eq_of_sameMaps h]

theorem stepCharLine_eq_of_sameMaps {a b : TextSearcher} (h : SameMaps a b) :
    ∀ fuel i p c found, stepCharLine a fuel i p c found = stepCharLine b fuel i p c found := by
  intro fuel
  induction fuel with
  | zero => intro i p c found; rfl
  | succ n ih =>
    intro i p c found
    simp only [stepCharLine, move_front_eq_of_sameMaps h, node_eq_of_sameMaps h, ih]

theorem matchLineAux_eq_of_sameMaps {a b : TextSearcher} (h : SameMaps a b)
    (fuel : Nat) : ∀ text names name found i p,
      matchLineAux a fuel text names name found i p =
      matchLineAux b fuel text names name found i p := by
  intro text
  induction text with
  | nil => intro names name found i p; rfl
  | cons c rest ih =>
    intro names name found i p
    simp only [matchLineAux, stepCharLine_eq_of_sameMaps h, ih]

theorem match_line_eq_of_sameMaps {a b : TextSearcher} (h : SameMaps a b)
    (text : String) : a.match_line text = b.match_line text := by
  unfold TextSearcher.match_line
  rw [stepFuel_eq_of_sameMaps h, matchLineAux_eq_of_sameMaps h]

theorem substChar_eq_of_sameMaps {a b : TextSearcher} (h : SameMaps a b)
    (letters : List Char) :
    ∀ fuel i p c st, substChar a letters fuel i p c st = substChar b letters fuel i p c st := by
  intro fuel
  induction fuel with
  | zero => intro i p c st; rfl
  | succ n ih =>
    intro i p c st
    simp only [substChar, move_front_eq_of_sameMaps h, node_eq_of_sameMaps h, ih]

theorem substAux_eq_of_sameMaps {a b : TextSearcher} (h : SameMaps a b)
    (letters : List Char) (fuel : Nat) :
    ∀ text i p st, substAux a letters fuel text i p st = substAux b letters fuel text i p st := by
  intro text
  induction text with
  | nil => intro i p st; rfl
  | cons c rest ih =>
    intro i p st
    simp only [substAux, substChar_eq_of_sameMaps h, ih]

theorem subst_eq_of_sameMaps {a b : TextSearcher} (h : SameMaps a b)
    (text : String) : a.subst text = b.subst text := by
  unfold TextSearcher.subst
  rw [stepFuel_eq_of_sameMaps h]
  simp only [substAux_eq_of_sameMaps h]

/-- **C5.**  Importing an export of a built automaton — with the two
transition lists arriving in any order, since hash-map iteration order is
unstable — yields an automaton that answers every `match_`, `match_line` and
`subst` query exactly as the original does.  The key-uniqueness hypotheses
hold for every automaton the builder produces, because `add_keyword` only
inserts an absent black key and `create_blues` visits each node id once. -/
theorem c5_roundtrip_perm (ts : TextSearcher) (r : TextSearcherForSerde)
    (hn : r.nodes = (TextSearcherForSerde.from_ ts).nodes)
    (hb : r.blacks.Perm (TextSearcherForSerde.from_ ts).blacks)
    (hu : r.blues.Perm (TextSearcherForSerde.from_ ts).blues)
    (hbk : ((TextSearcherForSerde.from_ ts).blacks.map Prod.fst).Nodup)
    (huk : ((TextSearcherForSerde.from_ ts).blues.map Prod.fst).Nodup)
    (text : String) :
    r.to_.match_ text = ts.match_ text ∧
    r.to_.match_line text = ts.match_line text ∧
    r.to_.subst text = ts.subst text := by
  have hmaps : SameMaps r.to_ ts := by
    refine ⟨hn, fun k => ?_, fun j => ?_⟩
    · exact alookup_perm hb (((hb.map Prod.fst).nodup_iff).mpr hbk) k
    · exact alookup_perm hu (((hu.map Prod.fst).nodup_iff).mpr huk) j
  exact ⟨match_eq_of_sameMaps hmaps text, match_line_eq_of_sameMaps hmaps text,
    subst_eq_of_sameMaps hmaps text⟩

/-- **C5, witness.**  The `{abc, def}` automaton re-imported with both
transition lists reversed answers the three queries identically on a
concrete text. -/
theorem c5_witness :
    (TextSearcherForSerde.to_
        ⟨tsLine.nodes, tsLine.blacks.reverse, tsLine.blues.reverse⟩).match_ "xxabcdef" =
      tsLine.match_ "xxabcdef" ∧
    (TextSearcherForSerde.to_
        ⟨tsLine.nodes, tsLine.blacks.reverse, tsLine.blues.reverse⟩).match_line "xxabcdef" =
      tsLine.match_line "xxabcdef" ∧
    (TextSearcherForSerde.to_
        ⟨tsLine.nodes, tsLine.blacks.reverse, tsLine.blues.reverse⟩).subst "xxabcdef" =
      tsLine.subst "xxabcdef" :=
  c5_roundtrip_perm tsLine
    ⟨tsLine.nodes, tsLine.blacks.reverse, tsLine.blues.reverse⟩
    rfl (by decide) (by decide) (by decide) (by decide) "xxabcdef"

/-! ### The registry and invalid handles -/

theorem alookup_eraseKey_self {α β : Type} [DecidableEq α]
    (l : List (α × β)) (k : α) : alookup (eraseKey l k) k = none := by
  induction l with
  | nil => rfl
  | cons e rest ih =>
    simp only [eraseKey]
    by_cases he : e.1 = k
    · simpa [he] using ih
    · simpa [alookup, he] using ih

/-- **C6, counterexample.**  On a fresh registry (so handle 1 was never
issued), `text_search_ex_free` on handle 1 succeeds with `Ok(0)`; it does
not fail with the invalid-handle error, contradicting the claim that "every
subsequent registry operation on h — including ... free itself — fails with
an InvalidHandle error". -/
theorem c6_counterexample :
    (text_search_ex_free TextSearcherManager.new 1).2 = Except.ok 0 ∧
    (text_search_ex_free TextSearcherManager.new 1).2 ≠
      Except.error (invalidHandleMsg 1) := by
  exact ⟨rfl, fun h => Except.noConfusion h⟩

/-- **C6, amended.**  Freeing a handle removes it from the registry, and on
a handle that is absent (freed or never issued) the `match` and `subst`
operations fail with the invalid-handle error naming that handle — but
`free` itself is a silent no-op that succeeds with `Ok(0)`. -/
theorem c6_amended_invalid_handle (tsm : TextSearcherManager) (h : Int)
    (text option : String) :
    alookup ((text_search_ex_free tsm h).1).tss h = none ∧
    (alookup tsm.tss h = none →
      (text_search_ex_match tsm h text option).2 =
        Except.error (invalidHandleMsg h) ∧
      (text_search_ex_subst tsm h text).2 =
        Except.error (invalidHandleMsg h) ∧
      (text_search_ex_free tsm h).2 = Except.ok 0) := by
  constructor
  · exact alookup_eraseKey_self tsm.tss h
  · intro habs
    refine ⟨?_, ?_, rfl⟩
    · unfold text_search_ex_match TextSearcherManager.get_text_searcher
      rw [habs]
    · unfold text_search_ex_subst TextSearcherManager.get_text_searcher
      rw [habs]

/-- **C6, witness.**  Instantiated on the fresh registry and handle 1. -/
theorem c6_witness :
    alookup ((text_search_ex_free TextSearcherManager.new 1).1).tss 1 = none ∧
    (text_search_ex_match TextSearcherManager.new 1 "t" "").2 =
      Except.error (invalidHandleMsg 1) ∧
    (text_search_ex_subst TextSearcherManager.new 1 "t").2 =
      Except.error (invalidHandleMsg 1) ∧
    (text_search_ex_free TextSearcherManager.new 1).2 = Except.ok 0 := by
  have h := c6_amended_invalid_handle TextSearcherManager.new 1 "t" ""
  exact ⟨h.1, h.2 rfl⟩

/-! ### Basic helpers on association lists and node arrays -/

theorem alookup_mem {α β : Type} [DecidableEq α] :
    ∀ {l : List (α × β)} {k : α} {v : β}, alookup l k = some v → (k, v) ∈ l := by
  intro l
  induction l with
  | nil => intro k v h; exact absurd h (by simp [alookup])
  | cons e rest ih =>
    intro k v h
    simp only [alookup] at h
    by_cases he : e.1 = k
    · simp only [he, if_true] at h
      obtain rfl := Option.some_injective _ h
      exact he ▸ (List.mem_cons_self e rest)
    · simp only [he, if_false] at h
      exact List.mem_cons_of_mem e (ih h)

theorem getD_set_ne {α : Type} :
    ∀ (l : List α) (i j : Nat) (x d : α), i ≠ j →
      (l.set i x).getD j d = l.getD j d := by
  intro l
  induction l with
  | nil => intro i j x d _; rfl
  | cons hd tl ih =>
    intro i j x d hij
    cases i with
    | zero =>
      cases j with
      | zero => exact absurd rfl hij
      | succ m => simp [List.set]
    | succ n =>
      cases j with
      | zero => simp [List.set]
      | succ m => simpa [List.set] using ih n m x d (fun h => hij (by rw [h]))

theorem map_set_preserve {α : Type} (g : KeywordNode → α)
    (f : KeywordNode → KeywordNode) (hf : ∀ nd, g (f nd) = g nd) :
    ∀ (nodes : List KeywordNode) (i : Nat) (d : KeywordNode),
      (nodes.set i (f (nodes.getD i d))).map g = nodes.map g := by
  intro nodes
  induction nodes with
  | nil => intro i d; rfl
  | cons hd tl ih =>
    intro i d
    cases i with
    | zero => simp [hf]
    | succ n => simpa [List.set] using ih n d

theorem map_getD_congr {α : Type} {a b : List KeywordNode}
    (g : KeywordNode → α) (h : a.map g = b.map g) (j : Nat) (d : KeywordNode) :
    g (a.getD j d) = g (b.getD j d) := by
  rw [← List.getD_map a d g, h, List.getD_map b d g]

theorem node_mem {ts : TextSearcher} {i : Nat} (h1 : 1 ≤ i)
    (h2 : i ≤ ts.nodes.length) : ts.node i ∈ ts.nodes := by
  have hlt : i - 1 < ts.nodes.length := by omega
  unfold TextSearcher.node
  rw [List.getD_eq_getElem _ _ hlt]
  exact List.getElem_mem hlt

/-! ### `add_keyword` preserves the builder invariant -/

theorem addKeywordLoop_spec :
    ∀ (rest : List Char) (ts : TextSearcher) (nodeId : Nat) (letters : List Char),
      WFBuild ts → 1 ≤ nodeId → nodeId ≤ ts.nodes.length →
      (ts.node nodeId).letters = letters →
      WFBuild (addKeywordLoop ts nodeId letters rest).1 ∧
      1 ≤ (addKeywordLoop ts nodeId letters rest).2 ∧
      (addKeywordLoop ts nodeId letters rest).2 ≤
        (addKeywordLoop ts nodeId letters rest).1.nodes.length ∧
      ((addKeywordLoop ts nodeId letters rest).1.node
        (addKeywordLoop ts nodeId letters rest).2).letters = letters ++ rest := by
  intro rest
  induction rest with
  | nil =>
    intro ts nodeId letters hwf h1 h2 hl
    simpa [addKeywordLoop] using ⟨hwf, h1, h2, hl⟩
  | cons c cs ih =>
    intro ts nodeId letters hwf h1 h2 hl
    cases hlk : alookup ts.blacks (nodeId, c) with
    | some nextId =>
      have hmem : ((nodeId, c), nextId) ∈ ts.blacks := alookup_mem hlk
      have htgt := hwf.black_tgt _ hmem
      have hlet : (ts.node nextId).letters = letters ++ [c] := by
        have := hwf.black_letters _ hmem
        rw [hl] at this
        exact this
      have hres := ih ts nextId (letters ++ [c]) hwf htgt.1 htgt.2 hlet
      simpa [addKeywordLoop, hlk, List.append_assoc] using hres
    | none =>
      set nd : KeywordNode := KeywordNode.new (letters ++ [c]) with hnd
      set N : Nat := ts.nodes.length with hN
      set tsx : TextSearcher :=
        { ts with nodes := ts.nodes ++ [nd],
                  blacks := ts.blacks ++ [((nodeId, c), N + 1)] } with htsx
      have hlenx : tsx.nodes.length = N + 1 := by simp [htsx]
      have hlenx' : (ts.nodes ++ [nd]).length = N + 1 := by simp
      have hnode_old : ∀ j, j ≤ N → tsx.node j = ts.node j := by
        intro j hj
        unfold TextSearcher.node
        have hjN : j - 1 < ts.nodes.length := by
          rcases Nat.eq_zero_or_pos j with hj0 | hjpos
          · subst hj0
            simpa using hwf.root_le
          · omega
        simp only [htsx]
        exact List.getD_append _ _ _ _ hjN
      have hnode_new : tsx.node (N + 1) = nd := by
        unfold TextSearcher.node
        simp only [htsx]
        rw [List.getD_append_right _ _ _ _ (by omega)]
        simp
      have hwfx : WFBuild tsx := by
        refine ⟨?_, ?_, ?_, ?_, ?_, ?_, ?_⟩
        · rw [hlenx]; omega
        · rw [hnode_old 1 hwf.root_le]; exact hwf.root_letters
        · intro e he
          rcases List.mem_append.mp he with hold | hnew
          · have := hwf.black_src _ hold
            simp only [htsx]
            omega
          · simp only [List.mem_singleton] at hnew
            subst hnew
            simp only [htsx]
            omega
        · intro e he
          rcases List.mem_append.mp he with hold | hnew
          · have := hwf.black_tgt _ hold
            simp only [htsx]
            omega
          · simp only [List.mem_singleton] at hnew
            subst hnew
            simp only [htsx]
            omega
        · intro e he
          rcases List.mem_append.mp he with hold | hnew
          · have hs := hwf.black_src _ hold
            have ht := hwf.black_tgt _ hold
            rw [hnode_old _ ht.2, hnode_old _ hs.2]
            exact hwf.black_letters _ hold
          · simp only [List.mem_singleton] at hnew
            subst hnew
            simp only
            rw [hnode_new, hnode_old _ h2, hl, hnd]
            simp [KeywordNode.new]
        · intro x hx
          simp only [htsx] at hx
          rcases List.mem_append.mp hx with hold | hnew
          · exact hwf.len_eq _ hold
          · simp only [List.mem_singleton] at hnew
            subst hnew
            rw [hnd]
            simp [KeywordNode.new]
        · simpa [htsx] using hwf.blues_nil
      have hlnew : (tsx.node (N + 1)).letters = letters ++ [c] := by
        rw [hnode_new, hnd]
        simp [KeywordNode.new]
      have hres := ih tsx (N + 1) (letters ++ [c]) hwfx (by omega)
        (by rw [hlenx]) hlnew
      have hunf : addKeywordLoop ts nodeId letters (c :: cs) =
          addKeywordLoop tsx (N + 1) (letters ++ [c]) cs := by
        simp only [addKeywordLoop, hlk, htsx, hnd, hN, List.length_append,
          List.length_singleton]
      rw [hunf]
      simpa [List.append_assoc] using hres

theorem wf_add_keyword {ts : TextSearcher} (hwf : WFBuild ts)
    (k : String) (nm : Option String) : WFBuild (ts.add_keyword k nm) := by
  have hroot : (ts.node 1).letters = [] := hwf.root_letters
  have hspec := addKeywordLoop_spec k.toList ts 1 [] hwf (le_refl 1)
    hwf.root_le hroot
  set r := addKeywordLoop ts 1 [] k.toList with hr
  obtain ⟨hwf1, hi1, hi2, _⟩ := hspec
  set f : KeywordNode → KeywordNode :=
    fun nd => { nd with is_blue := true, name := nm.getD k } with hf
  have hmap : ((r.1.nodes.set (r.2 - 1)
      (f (r.1.nodes.getD (r.2 - 1) (KeywordNode.new [])))).map pathData) =
        r.1.nodes.map pathData :=
    map_set_preserve pathData f (fun nd => rfl) r.1.nodes (r.2 - 1) _
  set ts2 := ts.add_keyword k nm with hts2
  have hts2e : ts2.nodes = r.1.nodes.set (r.2 - 1)
      (f (r.1.nodes.getD (r.2 - 1) (KeywordNode.new []))) := rfl
  have hblk : ts2.blacks = r.1.blacks := rfl
  have hblu : ts2.blues = r.1.blues := rfl
  have hlen2 : ts2.nodes.length = r.1.nodes.length := by
    rw [hts2e, List.length_set]
  have hmap2 : ts2.nodes.map pathData = r.1.nodes.map pathData := by
    rw [hts2e]; exact hmap
  have hnodeP : ∀ j, pathData (ts2.node j) = pathData (r.1.node j) := by
    intro j
    unfold TextSearcher.node
    exact map_getD_congr pathData hmap2 (j - 1) _
  have hnodeL : ∀ j, (ts2.node j).letters = (r.1.node j).letters := by
    intro j
    have h := congrArg Prod.fst (hnodeP j)
    simpa [pathData] using h
  refine ⟨?_, ?_, ?_, ?_, ?_, ?_, ?_⟩
  · rw [hlen2]; exact hwf1.root_le
  · rw [hnodeL 1]; exact hwf1.root_letters
  · intro e he
    rw [hblk] at he
    have := hwf1.black_src _ he
    omega
  · intro e he
    rw [hblk] at he
    have := hwf1.black_tgt _ he
    omega
  · intro e he
    rw [hblk] at he
    rw [hnodeL, hnodeL]
    exact hwf1.black_letters _ he
  · intro nd hnd
    rw [hts2e] at hnd
    have : pathData nd ∈ ts2.nodes.map pathData := by
      rw [hts2e]
      exact List.mem_map_of_mem pathData hnd
    rw [hmap2] at this
    obtain ⟨nd', hnd', hpd⟩ := List.mem_map.mp this
    have h1 : nd.letters = nd'.letters := by
      simpa [pathData, Prod.ext_iff] using congrArg Prod.fst hpd.symm
    have h2 : nd.length = nd'.length := by
      simpa [pathData, Prod.ext_iff] using congrArg Prod.snd hpd.symm
    rw [h1, h2]
    exact hwf1.len_eq _ hnd'
  · rw [hblu]; exact hwf1.blues_nil

theorem wf_new : WFBuild TextSearcher.new := by
  refine ⟨?_, ?_, ?_, ?_, ?_, ?_, ?_⟩ <;>
    simp [TextSearcher.new, TextSearcher.node, KeywordNode.new]

theorem wf_addAll (kws : List (String × Option String)) :
    ∀ ts : TextSearcher, WFBuild ts →
      WFBuild (kws.foldl (fun a kw => a.add_keyword kw.1 kw.2) ts) := by
  induction kws with
  | nil => intro ts h; exact h
  | cons kw rest ih =>
    intro ts h
    exact ih _ (wf_add_keyword h kw.1 kw.2)

/-! ### `create_blues` produces a well-formed finalized automaton -/

theorem getNodeAux_spec {ts : TextSearcher} (hwf : WFBuild ts) :
    ∀ (s : List Char) (i : Nat), 1 ≤ i → i ≤ ts.nodes.length →
      getNodeAux ts.blacks i s ≠ 0 →
      1 ≤ getNodeAux ts.blacks i s ∧
      getNodeAux ts.blacks i s ≤ ts.nodes.length ∧
      (ts.node (getNodeAux ts.blacks i s)).letters = (ts.node i).letters ++ s := by
  intro s
  induction s with
  | nil =>
    intro i h1 h2 _
    simpa [getNodeAux] using ⟨h1, h2⟩
  | cons c rest ih =>
    intro i h1 h2 hne
    cases hlk : alookup ts.blacks (i, c) with
    | some m =>
      have hmem : ((i, c), m) ∈ ts.blacks := alookup_mem hlk
      have htgt := hwf.black_tgt _ hmem
      have hlet := hwf.black_letters _ hmem
      simp only [getNodeAux, hlk] at hne ⊢
      have := ih m htgt.1 htgt.2 hne
      refine ⟨this.1, this.2.1, ?_⟩
      rw [this.2.2, hlet, List.append_assoc]
      rfl
    | none =>
      simp only [getNodeAux, hlk] at hne
      exact absurd rfl hne

theorem findSuffixAux_spec {blacks : List ((Nat × Char) × Nat)} :
    ∀ (s : List Char) (t : Nat), findSuffixAux blacks s = some t →
      ∃ m, s.drop m ≠ [] ∧ getNodeAux blacks 1 (s.drop m) = t ∧ t ≠ 0 := by
  intro s
  induction s with
  | nil => intro t h; exact absurd h (by simp [findSuffixAux])
  | cons c rest ih =>
    intro t h
    simp only [findSuffixAux] at h
    by_cases h0 : getNodeAux blacks 1 (c :: rest) ≠ 0
    · rw [if_pos h0] at h
      obtain rfl := Option.some_injective _ h
      exact ⟨0, by simp, rfl, h0⟩
    · rw [if_neg h0] at h
      obtain ⟨m, hm1, hm2, hm3⟩ := ih t h
      exact ⟨m + 1, by simpa using hm1, by simpa using hm2, hm3⟩

theorem createBluesStep_nodes (a : TextSearcher) (j : Nat) :
    (createBluesStep a j).nodes =
      a.nodes.set (j - 1) (clearLetters (a.nodes.getD (j - 1) (KeywordNode.new []))) := by
  simp only [createBluesStep]
  split <;> rfl

theorem createBluesStep_blacks (a : TextSearcher) (j : Nat) :
    (createBluesStep a j).blacks = a.blacks := by
  simp only [createBluesStep]
  split <;> rfl

theorem createBluesStep_blues (a : TextSearcher) (j : Nat) :
    (createBluesStep a j).blues = a.blues ++
      (match findSuffixAux a.blacks
          ((a.nodes.getD (j - 1) (KeywordNode.new [])).letters.drop 1) with
        | some t => [(j, t)]
        | none => []) := by
  simp only [createBluesStep]
  split <;> simp_all

theorem cbFold_spec {ts : TextSearcher} (hwf : WFBuild ts) :
    ∀ (l : List Nat) (acc : TextSearcher),
      l.Nodup →
      (∀ i ∈ l, i + 1 ≤ ts.nodes.length) →
      acc.blacks = ts.blacks →
      acc.nodes.length = ts.nodes.length →
      acc.nodes.map skel = ts.nodes.map skel →
      (∀ i ∈ l, acc.node (i + 1) = ts.node (i + 1)) →
      (∀ e ∈ acc.blues, BlueOk ts e) →
      (l.foldl (fun a i => createBluesStep a (i + 1)) acc).blacks = ts.blacks ∧
      (l.foldl (fun a i => createBluesStep a (i + 1)) acc).nodes.length = ts.nodes.length ∧
      (l.foldl (fun a i => createBluesStep a (i + 1)) acc).nodes.map skel = ts.nodes.map skel ∧
      (∀ e ∈ (l.foldl (fun a i => createBluesStep a (i + 1)) acc).blues, BlueOk ts e) := by
  intro l
  induction l with
  | nil =>
    intro acc _ _ hbk hln hsk _ hbl
    exact ⟨hbk, hln, hsk, hbl⟩
  | cons i rest ih =>
    intro acc hnd hrange hbk hln hsk hintact hbl
    have hndr := List.nodup_cons.mp hnd
    set acc' := createBluesStep acc (i + 1) with hacc'
    have hL : (acc.nodes.getD (i + 1 - 1) (KeywordNode.new [])).letters =
        (ts.node (i + 1)).letters := by
      have := hintact i (List.mem_cons_self i rest)
      unfold TextSearcher.node at this
      rw [this]
      rfl
    have hbk' : acc'.blacks = ts.blacks := by
      rw [hacc', createBluesStep_blacks, hbk]
    have hln' : acc'.nodes.length = ts.nodes.length := by
      rw [hacc', createBluesStep_nodes, List.length_set, hln]
    have hsk' : acc'.nodes.map skel = ts.nodes.map skel := by
      rw [hacc', createBluesStep_nodes,
        map_set_preserve skel clearLetters (fun nd => rfl), hsk]
    have hintact' : ∀ j ∈ rest, acc'.node (j + 1) = ts.node (j + 1) := by
      intro j hj
      have hij : i ≠ j := fun h => hndr.1 (h ▸ hj)
      unfold TextSearcher.node
      rw [hacc', createBluesStep_nodes, getD_set_ne _ _ _ _ _ (by omega)]
      have := hintact j (List.mem_cons_of_mem i hj)
      unfold TextSearcher.node at this
      exact this
    have hbl' : ∀ e ∈ acc'.blues, BlueOk ts e := by
      intro e he
      rw [hacc', createBluesStep_blues] at he
      rcases List.mem_append.mp he with hold | hnew
      · exact hbl e hold
      · cases hfs : findSuffixAux acc.blacks
            ((acc.nodes.getD (i + 1 - 1) (KeywordNode.new [])).letters.drop 1) with
        | none =>
          rw [hfs] at hnew
          exact absurd hnew (List.not_mem_nil e)
        | some t =>
          rw [hfs] at hnew
          simp only [List.mem_singleton] at hnew
          subst hnew
          rw [hL, hbk] at hfs
          obtain ⟨m, hm1, hm2, hm3⟩ := findSuffixAux_spec _ t hfs
          rw [List.drop_drop] at hm1 hm2
          rw [Nat.add_comm 1 m] at hm1 hm2
          set L := (ts.node (i + 1)).letters with hLdef
          have hlen_drop : (L.drop (m + 1)).length = L.length - (m + 1) :=
            List.length_drop _ _
          have hpos : 0 < (L.drop (m + 1)).length :=
            List.length_pos.mpr hm1
          have hwalk := getNodeAux_spec hwf (L.drop (m + 1)) 1 (le_refl 1)
            hwf.root_le (hm2 ▸ hm3)
          rw [hm2] at hwalk
          refine ⟨by omega, hrange i (List.mem_cons_self i rest), hwalk.1,
            hwalk.2.1, ?_⟩
          rw [hwalk.2.2, hwf.root_letters]
          simp only [List.nil_append]
          have hLL : L.length = (ts.node (i + 1)).letters.length :=
            congrArg List.length hLdef
          omega
    have := ih acc' hndr.2 (fun j hj => hrange j (List.mem_cons_of_mem i hj))
      hbk' hln' hsk' hintact' hbl'
    simpa [hacc'] using this

theorem node_skel_congr {a b : TextSearcher}
    (hmap : a.nodes.map skel = b.nodes.map skel) (j : Nat) :
    (a.node j).length = (b.node j).length ∧
    (a.node j).is_blue = (b.node j).is_blue ∧
    (a.node j).name = (b.node j).name := by
  have h := map_getD_congr skel hmap (j - 1) (KeywordNode.new [])
  unfold TextSearcher.node
  refine ⟨congrArg Prod.fst h, ?_, ?_⟩
  · exact congrArg (fun p => p.2.1) h
  · exact congrArg (fun p => p.2.2) h

theorem wf_create_blues {ts : TextSearcher} (hwf : WFBuild ts) :
    WFFinal ts.create_blues := by
  have hfold := cbFold_spec hwf (List.range ts.nodes.length) ts
    (List.nodup_range _)
    (fun i hi => by simpa [Nat.succ_le_iff] using List.mem_range.mp hi)
    rfl rfl rfl (fun i _ => rfl)
    (by rw [hwf.blues_nil]; intro e he; exact absurd he (List.not_mem_nil e))
  set F := ts.create_blues with hF
  have hFdef : F = (List.range ts.nodes.length).foldl
      (fun a i => createBluesStep a (i + 1)) ts := rfl
  rw [← hFdef] at hfold
  obtain ⟨hbk, hln, hsk, hbl⟩ := hfold
  have hnode := node_skel_congr hsk
  have hlenval : ∀ j, 1 ≤ j → j ≤ ts.nodes.length →
      (ts.node j).length = (ts.node j).letters.length := by
    intro j h1 h2
    exact hwf.len_eq _ (node_mem h1 h2)
  refine ⟨?_, ?_, ?_, ?_, ?_, ?_⟩
  · rw [hln]; exact hwf.root_le
  · rw [(hnode 1).1, hlenval 1 (le_refl 1) hwf.root_le, hwf.root_letters]
    rfl
  · intro e he
    rw [hbk] at he
    have := hwf.black_tgt _ he
    omega
  · intro e he
    rw [hbk] at he
    have hs := hwf.black_src _ he
    have ht := hwf.black_tgt _ he
    rw [(hnode e.2).1, (hnode e.1.1).1, hlenval _ ht.1 ht.2, hlenval _ hs.1 hs.2,
      hwf.black_letters _ he]
    simp
  · intro e he
    have := hbl e he
    unfold BlueOk at this
    omega
  · intro e he
    have hok := hbl e he
    obtain ⟨h11, h12, h21, h22, hlt⟩ := hok
    rw [(hnode e.2).1, (hnode e.1).1, hlenval _ h21 h22, hlenval _ h11 h12]
    exact hlt

theorem wf_build (kws : List (String × Option String)) : WFFinal (build kws) :=
  wf_create_blues (wf_addAll kws TextSearcher.new wf_new)

/-! ### Termination of the inner stepping loop on well-formed automatons -/

theorem mem_le_foldr_max :
    ∀ (l : List KeywordNode), ∀ nd ∈ l,
      nd.length ≤ l.foldr (fun nd m => max nd.length m) 0 := by
  intro l
  induction l with
  | nil => intro nd hnd; exact absurd hnd (List.not_mem_nil nd)
  | cons hd tl ih =>
    intro nd hnd
    rcases List.mem_cons.mp hnd with rfl | htl
    · simp [List.foldr]
    · have := ih nd htl
      simp only [List.foldr]
      omega

theorem le_maxNodeLen (ts : TextSearcher) (i : Nat) :
    (ts.node i).length ≤ maxNodeLen ts := by
  unfold TextSearcher.node maxNodeLen
  by_cases h : i - 1 < ts.nodes.length
  · rw [List.getD_eq_getElem _ _ h]
    exact mem_le_foldr_max ts.nodes _ (List.getElem_mem h)
  · rw [List.getD_eq_default _ _ (by omega)]
    simp [KeywordNode.new]

theorem move_front_root {ts : TextSearcher} (hwf : WFFinal ts) (c : Char) :
    (ts.move_front 1 c).2 = true := by
  unfold TextSearcher.move_front
  cases hbk : alookup ts.blacks (1, c) with
  | some m => rfl
  | none =>
    cases hbl : alookup ts.blues 1 with
    | some t =>
      exfalso
      have := hwf.blue_len _ (alookup_mem hbl)
      rw [hwf.root_len] at this
      omega
    | none => simp

theorem stepChar_isSome_of_used {ts : TextSearcher} {fuel i p : Nat} {c : Char}
    (h : 1 ≤ fuel) (hu : (ts.move_front i c).2 = true) :
    (stepChar ts fuel i p c).isSome := by
  cases fuel with
  | zero => omega
  | succ f => simp [stepChar, hu]

theorem stepChar_root_total {ts : TextSearcher} (hwf : WFFinal ts)
    (fuel p : Nat) (c : Char) (h : 1 ≤ fuel) :
    (stepChar ts fuel 1 p c).isSome :=
  stepChar_isSome_of_used h (move_front_root hwf c)

theorem stepChar_total {ts : TextSearcher} (hwf : WFFinal ts) :
    ∀ fuel i p c, (ts.node i).length + 2 ≤ fuel →
      (stepChar ts fuel i p c).isSome := by
  intro fuel
  induction fuel with
  | zero => intro i p c h; omega
  | succ f ih =>
    intro i p c h
    cases hbk : alookup ts.blacks (i, c) with
    | some m =>
      exact stepChar_isSome_of_used (by omega)
        (by unfold TextSearcher.move_front; rw [hbk])
    | none =>
      cases hbl : alookup ts.blues i with
      | some t =>
        have hlt : (ts.node t).length < (ts.node i).length := by
          simpa using hwf.blue_len _ (alookup_mem hbl)
        have hrec := ih t p c (by omega)
        obtain ⟨q, hq⟩ := Option.isSome_iff_exists.mp hrec
        simp only [stepChar, TextSearcher.move_front, hbk, hbl]
        rw [hq]
        simp
      | none =>
        by_cases hi : i = 1
        · subst hi
          simp [stepChar, TextSearcher.move_front, hbk, hbl]
        · have hrec := stepChar_root_total hwf f p c (by omega)
          obtain ⟨q, hq⟩ := Option.isSome_iff_exists.mp hrec
          simp only [stepChar, TextSearcher.move_front, hbk, hbl]
          simp only [decide_eq_false hi]
          rw [hq]
          simp

theorem stepCharLine_isSome_iff (ts : TextSearcher) :
    ∀ fuel i p c found,
      (stepCharLine ts fuel i p c found).isSome = (stepChar ts fuel i p c).isSome := by
  intro fuel
  induction fuel with
  | zero => intro i p c found; rfl
  | succ f ih =>
    intro i p c found
    simp only [stepCharLine, stepChar]
    cases hu : (ts.move_front i c).2 with
    | true =>
      simp [hu]
    | false =>
      simp only [hu, Bool.false_eq_true, if_false, ih]
      cases hsc : stepChar ts f (ts.move_front i c).1 p c with
      | some q => simp
      | none => simp

theorem substChar_isSome_iff (ts : TextSearcher) (letters : List Char) :
    ∀ fuel i p c st,
      (substChar ts letters fuel i p c st).isSome = (stepChar ts fuel i p c).isSome := by
  intro fuel
  induction fuel with
  | zero => intro i p c st; rfl
  | succ f ih =>
    intro i p c st
    simp only [substChar, stepChar]
    cases hu : (ts.move_front i c).2 with
    | true =>
      simp [hu]
    | false =>
      simp only [hu, Bool.false_eq_true, if_false, ih]
      cases hsc : stepChar ts f (ts.move_front i c).1 p c with
      | some q => simp
      | none => simp

theorem stepFuel_ge {ts : TextSearcher} (i : Nat) :
    (ts.node i).length + 2 ≤ ts.stepFuel := by
  unfold TextSearcher.stepFuel
  have := le_maxNodeLen ts i
  omega

theorem matchAux_total {ts : TextSearcher} (hwf : WFFinal ts) :
    ∀ text i p, (matchAux ts ts.stepFuel text i p).isSome := by
  intro text
  induction text with
  | nil => intro i p; simp [matchAux]
  | cons c rest ih =>
    intro i p
    obtain ⟨q, hq⟩ := Option.isSome_iff_exists.mp
      (stepChar_total hwf ts.stepFuel i (p + 1) c (stepFuel_ge i))
    obtain ⟨more, hmore⟩ := Option.isSome_iff_exists.mp (ih q.1 (p + 1))
    simp [matchAux, hq, hmore]

theorem matchLineAux_total {ts : TextSearcher} (hwf : WFFinal ts) :
    ∀ text names name found i p,
      (matchLineAux ts ts.stepFuel text names name found i p).isSome := by
  intro text
  induction text with
  | nil => intro names name found i p; simp [matchLineAux]
  | cons c rest ih =>
    intro names name found i p
    simp only [matchLineAux]
    by_cases hc : c = '\r' ∨ c = '\n'
    · rw [if_pos hc]
      exact ih _ "" (false, 0, 0) 1 0
    · rw [if_neg hc]
      have hsome : (stepCharLine ts ts.stepFuel i (p + 1) c found).isSome := by
        rw [stepCharLine_isSome_iff]
        exact stepChar_total hwf ts.stepFuel i (p + 1) c (stepFuel_ge i)
      cases hsc : stepCharLine ts ts.stepFuel i (p + 1) c found with
      | none => rw [hsc] at hsome; simp at hsome
      | some q => exact ih _ _ q.2 q.1 (p + 1)

theorem substAux_total {ts : TextSearcher} (hwf : WFFinal ts) (letters : List Char) :
    ∀ text i p st, (substAux ts letters ts.stepFuel text i p st).isSome := by
  intro text
  induction text with
  | nil => intro i p st; simp [substAux]
  | cons c rest ih =>
    intro i p st
    simp only [substAux]
    have hsome : (substChar ts letters ts.stepFuel i (p + 1) c st).isSome := by
      rw [substChar_isSome_iff]
      exact stepChar_total hwf ts.stepFuel i (p + 1) c (stepFuel_ge i)
    obtain ⟨q, hq⟩ := Option.isSome_iff_exists.mp hsome
    rw [hq]
    exact ih q.1 (p + 1) q.2

theorem match_total {ts : TextSearcher} (hwf : WFFinal ts) (text : String) :
    (ts.match_ text).isSome :=
  matchAux_total hwf text.toList 1 0

theorem match_line_total {ts : TextSearcher} (hwf : WFFinal ts) (text : String) :
    (ts.match_line text).isSome :=
  matchLineAux_total hwf text.toList [] "" (false, 0, 0) 1 0

theorem subst_total {ts : TextSearcher} (hwf : WFFinal ts) (text : String) :
    (ts.subst text).isSome := by
  unfold TextSearcher.subst
  obtain ⟨st, hst⟩ := Option.isSome_iff_exists.mp
    (substAux_total hwf text.toList text.toList 1 0 (("", 0), ("", 0, 0)))
  rw [hst]
  simp

/-- **C8.**  On any automaton built (and finalized) from non-empty keywords,
every blue link points to a node of strictly smaller length, and in
consequence the whole-text match, line match and substitution scans all
terminate on every input text (the fuelled inner loop never runs out). -/
theorem c8_blue_shrink_terminates (kws : List (String × Option String))
    (hne : ∀ kw ∈ kws, kw.1 ≠ "") (text : String) :
    (∀ e ∈ (build kws).blues,
      ((build kws).node e.2).length < ((build kws).node e.1).length) ∧
    ((build kws).match_ text).isSome ∧
    ((build kws).match_line text).isSome ∧
    ((build kws).subst text).isSome := by
  have hwf := wf_build kws
  exact ⟨hwf.blue_len, match_total hwf text, match_line_total hwf text,
    subst_total hwf text⟩

/-- **C8, witness.**  Instantiated on the seven-keyword automaton and the
text `"abccab"`. -/
theorem c8_witness :
    (∀ e ∈ (build kws7).blues,
      ((build kws7).node e.2).length < ((build kws7).node e.1).length) ∧
    ((build kws7).match_ "abccab").isSome ∧
    ((build kws7).match_line "abccab").isSome ∧
    ((build kws7).subst "abccab").isSome :=
  c8_blue_shrink_terminates kws7 (by decide) "abccab"

/-! ### Position bounds and ordering of the events emitted by `match_` -/

theorem stepChar_events {ts : TextSearcher} (hwf : WFFinal ts) :
    ∀ (fuel i p : Nat) (c : Char) (j : Nat) (evs : List Ev),
      (ts.node i).length + 1 ≤ p →
      stepChar ts fuel i p c = some (j, evs) →
      (ts.node j).length ≤ p ∧
      (∀ ev ∈ evs, (p - 1 ≤ ev.2.2 ∧ ev.2.2 ≤ p) ∧ EvWitness ts ev) ∧
      evs.Pairwise (fun a b => a.2.2 ≤ b.2.2) := by
  intro fuel
  induction fuel with
  | zero =>
    intro i p c j evs _ h
    exact absurd h (by simp [stepChar])
  | succ f ih =>
    intro i p c j evs hp h
    cases hbk : alookup ts.blacks (i, c) with
    | some m =>
      have hmv : ts.move_front i c = (m, true) := by
        simp [TextSearcher.move_front, hbk]
      have hmem : ((i, c), m) ∈ ts.blacks := alookup_mem hbk
      have hmlen : (ts.node m).length = (ts.node i).length + 1 := by
        simpa using hwf.black_len _ hmem
      have hmval : 1 ≤ m ∧ m ≤ ts.nodes.length := by
        simpa using hwf.black_tgt _ hmem
      simp only [stepChar, hmv, eq_self_iff_true, if_true, Option.some_inj,
        Prod.mk.injEq] at h
      obtain ⟨hj, hevs⟩ := h
      subst hj
      subst hevs
      refine ⟨by omega, ?_, ?_⟩
      · intro ev hev
        by_cases hblue : (ts.node m).is_blue = true
        · rw [if_pos hblue] at hev
          simp only [List.mem_singleton] at hev
          subst hev
          refine ⟨⟨Nat.sub_le p 1, Nat.le_refl p⟩, ts.node m,
            node_mem hmval.1 hmval.2, hblue, rfl, ?_⟩
          dsimp only
          omega
        · rw [if_neg hblue] at hev
          exact absurd hev (List.not_mem_nil ev)
      · by_cases hblue : (ts.node m).is_blue = true
        · rw [if_pos hblue]
          exact List.pairwise_singleton _ _
        · rw [if_neg hblue]
          exact List.Pairwise.nil
    | none =>
      cases hbl : alookup ts.blues i with
      | some t =>
        have hmv : ts.move_front i c = (t, false) := by
          simp [TextSearcher.move_front, hbk, hbl]
        have hmem : (i, t) ∈ ts.blues := alookup_mem hbl
        have htlen : (ts.node t).length < (ts.node i).length := by
          simpa using hwf.blue_len _ hmem
        have htval : 1 ≤ t ∧ t ≤ ts.nodes.length := by
          simpa using hwf.blue_tgt _ hmem
        simp only [stepChar, hmv, Bool.false_eq_true, if_false] at h
        cases hsc : stepChar ts f t p c with
        | none =>
          rw [hsc] at h
          exact absurd h (by simp)
        | some q =>
          rw [hsc] at h
          simp only [Option.some_inj] at h
          obtain ⟨hj, hevs⟩ : q.1 = j ∧
              ((if (ts.node t).is_blue = true then
                [((ts.node t).name, p - (ts.node t).length - 1, p - 1)] else [])
                ++ q.2) = evs := ⟨congrArg Prod.fst h, congrArg Prod.snd h⟩
          have hrec := ih t p c q.1 q.2 (by omega) (by rw [hsc])
          subst hj
          subst hevs
          refine ⟨hrec.1, ?_, ?_⟩
          · intro ev hev
            rcases List.mem_append.mp hev with hnew | hold
            · by_cases hblue : (ts.node t).is_blue = true
              · rw [if_pos hblue] at hnew
                simp only [List.mem_singleton] at hnew
                subst hnew
                refine ⟨⟨Nat.le_refl (p - 1), Nat.sub_le p 1⟩, ts.node t,
                  node_mem htval.1 htval.2, hblue, rfl, ?_⟩
                dsimp only
                omega
              · rw [if_neg hblue] at hnew
                exact absurd hnew (List.not_mem_nil ev)
            · exact hrec.2.1 ev hold
          · rw [List.pairwise_append]
            refine ⟨?_, hrec.2.2, ?_⟩
            · by_cases hblue : (ts.node t).is_blue = true
              · rw [if_pos hblue]; exact List.pairwise_singleton _ _
              · rw [if_neg hblue]; exact List.Pairwise.nil
            · intro a ha b hb
              have hbnd := (hrec.2.1 b hb).1
              by_cases hblue : (ts.node t).is_blue = true
              · rw [if_pos hblue] at ha
                simp only [List.mem_singleton] at ha
                subst ha
                dsimp only
                omega
              · rw [if_neg hblue] at ha
                exact absurd ha (List.not_mem_nil a)
      | none =>
        by_cases hi : i = 1
        · subst hi
          have hmv : ts.move_front 1 c = (1, true) := by
            simp [TextSearcher.move_front, hbk, hbl]
          simp only [stepChar, hmv, eq_self_iff_true, if_true, Option.some_inj,
        Prod.mk.injEq] at h
          obtain ⟨hj, hevs⟩ := h
          subst hj
          subst hevs
          have hroot := hwf.root_len
          refine ⟨by omega, ?_, ?_⟩
          · intro ev hev
            by_cases hblue : (ts.node 1).is_blue = true
            · rw [if_pos hblue] at hev
              simp only [List.mem_singleton] at hev
              subst hev
              refine ⟨⟨Nat.sub_le p 1, Nat.le_refl p⟩, ts.node 1,
                node_mem (Nat.le_refl 1) hwf.root_le, hblue, rfl, ?_⟩
              dsimp only
              omega
            · rw [if_neg hblue] at hev
              exact absurd hev (List.not_mem_nil ev)
          · by_cases hblue : (ts.node 1).is_blue = true
            · rw [if_pos hblue]; exact List.pairwise_singleton _ _
            · rw [if_neg hblue]; exact List.Pairwise.nil
        · have hmv : ts.move_front i c = (1, false) := by
            simp [TextSearcher.move_front, hbk, hbl, hi]
          have hroot := hwf.root_len
          simp only [stepChar, hmv, Bool.false_eq_true, if_false] at h
          cases hsc : stepChar ts f 1 p c with
          | none =>
            rw [hsc] at h
            exact absurd h (by simp)
          | some q =>
            rw [hsc] at h
            simp only [Option.some_inj] at h
            obtain ⟨hj, hevs⟩ : q.1 = j ∧
                ((if (ts.node 1).is_blue = true then
                  [((ts.node 1).name, p - (ts.node 1).length - 1, p - 1)] else [])
                  ++ q.2) = evs := ⟨congrArg Prod.fst h, congrArg Prod.snd h⟩
            have hrec := ih 1 p c q.1 q.2 (by omega) (by rw [hsc])
            subst hj
            subst hevs
            refine ⟨hrec.1, ?_, ?_⟩
            · intro ev hev
              rcases List.mem_append.mp hev with hnew | hold
              · by_cases hblue : (ts.node 1).is_blue = true
                · rw [if_pos hblue] at hnew
                  simp only [List.mem_singleton] at hnew
                  subst hnew
                  refine ⟨⟨Nat.le_refl (p - 1), Nat.sub_le p 1⟩, ts.node 1,
                    node_mem (Nat.le_refl 1) hwf.root_le, hblue, rfl, ?_⟩
                  dsimp only
                  omega
                · rw [if_neg hblue] at hnew
                  exact absurd hnew (List.not_mem_nil ev)
              · exact hrec.2.1 ev hold
            · rw [List.pairwise_append]
              refine ⟨?_, hrec.2.2, ?_⟩
              · by_cases hblue : (ts.node 1).is_blue = true
                · rw [if_pos hblue]; exact List.pairwise_singleton _ _
                · rw [if_neg hblue]; exact List.Pairwise.nil
              · intro a ha b hb
                have hbnd := (hrec.2.1 b hb).1
                by_cases hblue : (ts.node 1).is_blue = true
                · rw [if_pos hblue] at ha
                  simp only [List.mem_singleton] at ha
                  subst ha
                  dsimp only
                  omega
                · rw [if_neg hblue] at ha
                  exact absurd ha (List.not_mem_nil a)
theorem matchAux_events {ts : TextSearcher} (hwf : WFFinal ts) :
    ∀ (text : List Char) (i p : Nat) (evs : List Ev),
      (ts.node i).length ≤ p →
      matchAux ts ts.stepFuel text i p = some evs →
      (∀ ev ∈ evs,
        (p ≤ ev.2.2 ∧ ev.2.2 ≤ p + text.length) ∧ EvWitness ts ev) ∧
      evs.Pairwise (fun a b => a.2.2 ≤ b.2.2) := by
  intro text
  induction text with
  | nil =>
    intro i p evs _ h
    obtain rfl : ([] : List Ev) = evs := by simpa [matchAux] using h
    exact ⟨fun ev hev => absurd hev (List.not_mem_nil ev), List.Pairwise.nil⟩
  | cons c rest ih =>
    intro i p evs hlen h
    simp only [matchAux] at h
    cases hsc : stepChar ts ts.stepFuel i (p + 1) c with
    | none => rw [hsc] at h; exact absurd h (by simp)
    | some q =>
      simp only [hsc] at h
      cases hmm : matchAux ts ts.stepFuel rest q.1 (p + 1) with
      | none =>
        simp only [hmm] at h
        exact absurd h (by simp)
      | some more =>
        simp only [hmm, Option.some_inj] at h
        subst h
        have hstep := stepChar_events hwf ts.stepFuel i (p + 1) c q.1 q.2
          (by omega) (by rw [hsc])
        have hrest := ih q.1 (p + 1) more (by omega) hmm
        constructor
        · intro ev hev
          rcases List.mem_append.mp hev with hq | hm
          · have := hstep.2.1 ev hq
            exact ⟨⟨by omega, by simp only [List.length_cons]; omega⟩, this.2⟩
          · have := hrest.1 ev hm
            exact ⟨⟨by omega, by simp only [List.length_cons]; omega⟩, this.2⟩
        · rw [List.pairwise_append]
          refine ⟨hstep.2.2, hrest.2, ?_⟩
          intro a ha b hb
          have h1 := (hstep.2.1 a ha).1
          have h2 := (hrest.1 b hb).1
          omega

/-- **C10.**  On any built automaton, the event list returned by whole-text
match is sorted in non-decreasing order of end offset, and every event is
justified by a terminal node of the matched automaton: its name is that
node's name, `start + length = end` exactly (no truncation), and `end`
never exceeds the character count of the text. -/
theorem c10_match_sorted_bounds (kws : List (String × Option String))
    (text : String) (evs : List Ev)
    (h : (build kws).match_ text = some evs) :
    evs.Pairwise (fun a b => a.2.2 ≤ b.2.2) ∧
    ∀ ev ∈ evs, ev.2.2 ≤ text.length ∧ EvWitness (build kws) ev := by
  have hwf := wf_build kws
  have hres := matchAux_events hwf text.toList 1 0 evs
    (le_of_eq hwf.root_len) h
  refine ⟨hres.2, fun ev hev => ?_⟩
  have h1 := hres.1 ev hev
  refine ⟨?_, h1.2⟩
  have h2 := h1.1.2
  have h3 : text.toList.length = text.length := String.length_data text
  omega

/-- **C10, witness.**  Instantiated on the seven-keyword automaton and the
text `"abccab"` with its concrete event list. -/
theorem c10_witness :
    ([(("a" : String), 0, 1), ("ab", 0, 2), ("bc", 1, 3), ("c", 2, 3),
      ("c", 3, 4), ("a", 4, 5), ("ab", 4, 6)].Pairwise
        (fun a b => a.2.2 ≤ b.2.2)) ∧
    ∀ ev ∈ [(("a" : String), 0, 1), ("ab", 0, 2), ("bc", 1, 3), ("c", 2, 3),
      ("c", 3, 4), ("a", 4, 5), ("ab", 4, 6)],
      ev.2.2 ≤ ("abccab" : String).length ∧ EvWitness (build kws7) ev :=
  c10_match_sorted_bounds kws7 "abccab"
    [("a", 0, 1), ("ab", 0, 2), ("bc", 1, 3), ("c", 2, 3),
     ("c", 3, 4), ("a", 4, 5), ("ab", 4, 6)] (by decide)

/-! ### A matchless scan leaves `subst` as the identity -/

theorem substChar_of_stepChar_nil (ts : TextSearcher) (letters : List Char) :
    ∀ (fuel i p : Nat) (c : Char) (j : Nat)
      (st : (String × Nat) × (String × Nat × Nat)),
      stepChar ts fuel i p c = some (j, []) →
      substChar ts letters fuel i p c st = some (j, st) := by
  intro fuel
  induction fuel with
  | zero =>
    intro i p c j st h
    exact absurd h (by simp [stepChar])
  | succ f ih =>
    intro i p c j st h
    cases hmv : ts.move_front i c with
    | mk nid used =>
      cases used with
      | true =>
        simp only [stepChar, hmv, eq_self_iff_true, if_true, Option.some_inj,
          Prod.mk.injEq] at h
        obtain ⟨hj, hevs⟩ := h
        subst hj
        have hblue : (ts.node nid).is_blue ≠ true := by
          intro hb
          rw [if_pos hb] at hevs
          exact absurd hevs (by simp)
        simp only [substChar, hmv, eq_self_iff_true, if_true,
          if_neg hblue]
      | false =>
        simp only [stepChar, hmv, Bool.false_eq_true, if_false] at h
        cases hsc : stepChar ts f nid p c with
        | none =>
          rw [hsc] at h
          exact absurd h (by simp)
        | some q =>
          obtain ⟨q1, q2⟩ := q
          rw [hsc] at h
          simp only [Option.some_inj, Prod.mk.injEq] at h
          obtain ⟨hj, hevs⟩ := h
          obtain ⟨h1, h2⟩ := List.append_eq_nil.mp hevs
          subst h2
          subst hj
          have hblue : (ts.node nid).is_blue ≠ true := by
            intro hb
            rw [if_pos hb] at h1
            exact absurd h1 (by simp)
          have hrec := ih nid p c q1 st hsc
          simp only [substChar, hmv, Bool.false_eq_true, if_false,
            if_neg hblue]
          exact hrec

theorem substAux_of_matchAux_nil (ts : TextSearcher) (letters : List Char) :
    ∀ (text : List Char) (i p : Nat)
      (st : (String × Nat) × (String × Nat × Nat)),
      matchAux ts ts.stepFuel text i p = some [] →
      substAux ts letters ts.stepFuel text i p st = some st := by
  intro text
  induction text with
  | nil => intro i p st _; rfl
  | cons c rest ih =>
    intro i p st h
    simp only [matchAux] at h
    cases hsc : stepChar ts ts.stepFuel i (p + 1) c with
    | none =>
      rw [hsc] at h
      exact absurd h (by simp)
    | some q =>
      simp only [hsc] at h
      cases hmm : matchAux ts ts.stepFuel rest q.1 (p + 1) with
      | none =>
        simp only [hmm] at h
        exact absurd h (by simp)
      | some more =>
        simp only [hmm, Option.some_inj] at h
        obtain ⟨h1, h2⟩ := List.append_eq_nil.mp h
        have hq : stepChar ts ts.stepFuel i (p + 1) c = some (q.1, []) := by
          rw [hsc, ← h1]
        have hstep := substChar_of_stepChar_nil ts letters ts.stepFuel i (p + 1)
          c q.1 st hq
        simp only [substAux, hstep]
        exact ih q.1 (p + 1) st (by rw [hmm, h2])

theorem pushRangeAux_data (letters : List Char) :
    ∀ (cnt : Nat) (s : String) (i : Nat), i + cnt ≤ letters.length →
      (pushRangeAux letters s i cnt).data = s.data ++ (letters.drop i).take cnt := by
  intro cnt
  induction cnt with
  | zero =>
    intro s i _
    simp [pushRangeAux]
  | succ n ihc =>
    intro s i hle
    have hi : i < letters.length := by omega
    have hstep : (pushRangeAux letters s i (n + 1)) =
        pushRangeAux letters (s.push (letters.getD i (Char.ofNat 0))) (i + 1) n := rfl
    rw [hstep, ihc _ (i + 1) (by omega)]
    have hpush : (s.push (letters.getD i (Char.ofNat 0))).data =
        s.data ++ [letters.getD i (Char.ofNat 0)] := rfl
    rw [hpush, List.getD_eq_getElem _ _ hi, List.drop_eq_getElem_cons hi,
      List.take_cons_succ, List.append_assoc]
    rfl

theorem pushRange_whole (letters : List Char) :
    pushRange "" letters 0 letters.length = String.mk letters := by
  apply String.ext
  unfold pushRange
  rw [pushRangeAux_data letters (letters.length - 0) "" 0 (by omega)]
  simp

/-- **C9.**  For every automaton and every input text on which the scan
never reaches a terminal node — expressed as whole-text match returning the
empty event list — substitution returns the input text unchanged, character
for character. -/
theorem c9_subst_id_no_match (ts : TextSearcher) (text : String)
    (h : ts.match_ text = some []) : ts.subst text = some text := by
  unfold TextSearcher.match_ at h
  have hsa := substAux_of_matchAux_nil ts text.toList text.toList 1 0
    (("", 0), ("", 0, 0)) h
  unfold TextSearcher.subst
  rw [hsa]
  show some (pushRange "" text.toList 0 text.toList.length) = some text
  rw [pushRange_whole text.toList]
  rfl

/-- **C9, witness.**  Instantiated on the seven-keyword automaton and the
keyword-free text `"xyz"`. -/
theorem c9_witness : ts7.subst "xyz" = some "xyz" :=
  c9_subst_id_no_match ts7 "xyz" (by decide)

/-! ### C4, stage 1: the single-keyword automaton is a path trie -/

theorem alookup_append {α β : Type} [DecidableEq α] :
    ∀ (l1 l2 : List (α × β)) (key : α),
      alookup (l1 ++ l2) key =
        match alookup l1 key with
        | some v => some v
        | none => alookup l2 key := by
  intro l1
  induction l1 with
  | nil => intro l2 key; rfl
  | cons e rest ih =>
    intro l2 key
    simp only [List.cons_append, alookup]
    by_cases he : e.1 = key
    · rw [if_pos he, if_pos he]
    · rw [if_neg he, if_neg he]
      exact ih l2 key

theorem alookup_eq_none {α β : Type} [DecidableEq α] :
    ∀ (l : List (α × β)) (key : α), (∀ e ∈ l, e.1 ≠ key) → alookup l key = none := by
  intro l
  induction l with
  | nil => intro key _; rfl
  | cons e rest ih =>
    intro key h
    simp only [alookup, if_neg (h e (List.mem_cons_self e rest))]
    exact ih key (fun x hx => h x (List.mem_cons_of_mem e hx))

theorem stateOf_nodes_len (pre : List Char) :
    (stateOf pre).nodes.length = pre.length + 1 := by
  simp [stateOf]

theorem stateOf_snoc_nodes (pre : List Char) (c : Char) :
    (stateOf (pre ++ [c])).nodes =
      (stateOf pre).nodes ++ [KeywordNode.new (pre ++ [c])] := by
  simp only [stateOf, List.length_append, List.length_singleton]
  rw [List.range_succ, List.map_append]
  have h1 : (List.range pre.length).map
        (fun i => KeywordNode.new ((pre ++ [c]).take (i + 1))) =
      (List.range pre.length).map (fun i => KeywordNode.new (pre.take (i + 1))) := by
    apply List.map_congr_left
    intro i hi
    rw [List.take_append_of_le_length (by
      have := List.mem_range.mp hi
      omega)]
  have h2 : (pre ++ [c]).take (pre.length + 1) = pre ++ [c] := by
    have : (pre ++ [c]).length = pre.length + 1 := by simp
    rw [← this]
    exact List.take_length _
  rw [h1]
  simp only [List.map_singleton, h2, List.cons_append]

theorem stateOf_snoc_blacks (pre : List Char) (c : Char) :
    (stateOf (pre ++ [c])).blacks =
      (stateOf pre).blacks ++ [((pre.length + 1, c), pre.length + 2)] := by
  simp only [stateOf, List.length_append, List.length_singleton]
  rw [List.range_succ, List.map_append]
  have h1 : (List.range pre.length).map
        (fun i => ((i + 1, (pre ++ [c]).getD i (Char.ofNat 0)), i + 2)) =
      (List.range pre.length).map
        (fun i => ((i + 1, pre.getD i (Char.ofNat 0)), i + 2)) := by
    apply List.map_congr_left
    intro i hi
    rw [List.getD_append _ _ _ _ (List.mem_range.mp hi)]
  have h2 : (pre ++ [c]).getD pre.length (Char.ofNat 0) = c := by
    rw [List.getD_append_right _ _ _ _ (le_refl _)]
    simp
  rw [h1]
  simp only [List.map_singleton, h2]

theorem addKeywordLoop_stateOf :
    ∀ (rest pre : List Char),
      addKeywordLoop (stateOf pre) (pre.length + 1) pre rest =
        (stateOf (pre ++ rest), (pre ++ rest).length + 1) := by
  intro rest
  induction rest with
  | nil => intro pre; simp [addKeywordLoop]
  | cons c cs ih =>
    intro pre
    have hnone : alookup (stateOf pre).blacks (pre.length + 1, c) = none := by
      apply alookup_eq_none
      intro e he
      simp only [stateOf, List.mem_map, List.mem_range] at he
      obtain ⟨i, hi, rfl⟩ := he
      intro hcon
      have : i + 1 = pre.length + 1 := congrArg Prod.fst hcon
      omega
    have hlen : ((stateOf pre).nodes ++ [KeywordNode.new (pre ++ [c])]).length =
        pre.length + 2 := by
      rw [List.length_append, stateOf_nodes_len]
      rfl
    have hstep : addKeywordLoop (stateOf pre) (pre.length + 1) pre (c :: cs) =
        addKeywordLoop (stateOf (pre ++ [c])) ((pre ++ [c]).length + 1)
          (pre ++ [c]) cs := by
      simp only [addKeywordLoop, hnone]
      have hns : { stateOf pre with
          nodes := (stateOf pre).nodes ++ [KeywordNode.new (pre ++ [c])],
          blacks := (stateOf pre).blacks ++
            [((pre.length + 1, c),
              ((stateOf pre).nodes ++ [KeywordNode.new (pre ++ [c])]).length)] } =
          stateOf (pre ++ [c]) := by
        rw [hlen]
        rw [← stateOf_snoc_nodes, ← stateOf_snoc_blacks]
        rfl
      rw [hns, hlen]
      have : (pre ++ [c]).length + 1 = pre.length + 2 := by simp
      rw [this]
    rw [hstep, ih (pre ++ [c])]
    simp

theorem new_eq_stateOf_nil : TextSearcher.new = stateOf [] := rfl

theorem stateOf_getD (pre : List Char) (j : Nat) (hj : j ≤ pre.length) :
    (stateOf pre).nodes.getD j (KeywordNode.new []) =
      KeywordNode.new (pre.take j) := by
  cases j with
  | zero => rfl
  | succ m =>
    have hm : m < pre.length := by omega
    unfold stateOf
    rw [List.getD_cons_succ]
    rw [List.getD_eq_getElem _ _ (by simpa using hm)]
    rw [List.getElem_map, List.getElem_range]

/-- The searcher produced by inserting a single keyword: the path trie with
the final node marked terminal and named `k`. -/
theorem single_add (k : String) :
    TextSearcher.new.add_keyword k none = singleAdded k := by
  unfold singleAdded
  unfold TextSearcher.add_keyword
  have hloop : addKeywordLoop TextSearcher.new 1 [] k.toList =
      (stateOf k.toList, k.toList.length + 1) := by
    have h := addKeywordLoop_stateOf k.toList []
    simpa using h
  simp only [hloop]
  have hgd : (stateOf k.toList).nodes.getD (k.toList.length + 1 - 1)
      (KeywordNode.new []) = KeywordNode.new k.toList := by
    rw [Nat.add_sub_cancel, stateOf_getD k.toList k.toList.length (le_refl _),
      List.take_length]
  rw [hgd]
  rw [Nat.add_sub_cancel]
  rfl

theorem getD_set_self {α : Type} :
    ∀ (l : List α) (i : Nat) (x d : α), i < l.length →
      (l.set i x).getD i d = x := by
  intro l
  induction l with
  | nil => intro i x d h; exact absurd h (by simp)
  | cons hd tl ih =>
    intro i x d h
    cases i with
    | zero => rfl
    | succ m =>
      simp only [List.set]
      rw [List.getD_cons_succ]
      exact ih m x d (by simpa using h)

theorem rangeMap_alookup (g : Nat → Char) :
    ∀ (m j : Nat) (c : Char),
      alookup ((List.range m).map (fun i => ((i + 1, g i), i + 2))) (j, c) =
        if 1 ≤ j ∧ j ≤ m ∧ g (j - 1) = c then some (j + 1) else none := by
  intro m
  induction m with
  | zero =>
    intro j c
    rw [if_neg (by omega)]
    rfl
  | succ m ih =>
    intro j c
    rw [List.range_succ, List.map_append, alookup_append, ih]
    by_cases h1 : 1 ≤ j ∧ j ≤ m ∧ g (j - 1) = c
    · rw [if_pos h1, if_pos ⟨h1.1, by omega, h1.2.2⟩]
    · rw [if_neg h1]
      simp only [List.map_singleton, alookup]
      by_cases h2 : ((m + 1, g m) : Nat × Char) = (j, c)
      · have hj : m + 1 = j := congrArg Prod.fst h2
        have hc : g m = c := congrArg Prod.snd h2
        subst hj
        rw [if_pos h2, if_pos ⟨by omega, le_refl _, by simpa using hc⟩]
      · have hfalse : ¬(1 ≤ j ∧ j ≤ m + 1 ∧ g (j - 1) = c) := by
          intro hcon
          rcases Nat.lt_or_ge j (m + 1) with hlt | hge
          · exact h1 ⟨hcon.1, by omega, hcon.2.2⟩
          · have hjj : j = m + 1 := by omega
            apply h2
            subst hjj
            have hgc : g (m + 1 - 1) = c := hcon.2.2
            simp only [Nat.add_sub_cancel] at hgc
            rw [hgc]
        rw [if_neg h2, if_neg hfalse]

theorem single_black_lookup (kl : List Char) (j : Nat) (c : Char) :
    alookup (stateOf kl).blacks (j, c) =
      if 1 ≤ j ∧ j ≤ kl.length ∧ kl.getD (j - 1) (Char.ofNat 0) = c then
        some (j + 1) else none := by
  unfold stateOf
  exact rangeMap_alookup (fun i => kl.getD i (Char.ofNat 0)) kl.length j c

theorem single_getNodeAux (kl : List Char) :
    ∀ (s : List Char) (j : Nat), j ≤ kl.length →
      getNodeAux (stateOf kl).blacks (j + 1) s =
        if (kl.drop j).take s.length = s then j + s.length + 1 else 0 := by
  intro s
  induction s with
  | nil =>
    intro j _
    simp [getNodeAux]
  | cons c cs ih =>
    intro j hj
    simp only [getNodeAux]
    rw [single_black_lookup kl (j + 1) c]
    simp only [Nat.add_sub_cancel]
    by_cases hcond : j + 1 ≤ kl.length ∧ kl.getD j (Char.ofNat 0) = c
    · rw [if_pos ⟨by omega, hcond.1, hcond.2⟩]
      have hjlt : j < kl.length := by omega
      have hdrop : kl.drop j = kl[j] :: kl.drop (j + 1) :=
        List.drop_eq_getElem_cons hjlt
      have hgd : kl[j] = c := by
        rw [← List.getD_eq_getElem kl (Char.ofNat 0) hjlt]
        exact hcond.2
      show getNodeAux (stateOf kl).blacks (j + 1 + 1) cs = _
      rw [ih (j + 1) hcond.1]
      by_cases h2 : (kl.drop (j + 1)).take cs.length = cs
      · rw [if_pos h2, if_pos (by
          rw [hdrop, List.length_cons, List.take_succ_cons, hgd, h2])]
        simp only [List.length_cons]
        congr 1
        omega
      · rw [if_neg h2, if_neg (fun hcon => ?_)]
        rw [hdrop, List.length_cons, List.take_succ_cons] at hcon
        exact h2 (List.tail_eq_of_cons_eq hcon)
    · have hfalse : ¬((kl.drop j).take (c :: cs).length = c :: cs) := by
        intro hcon
        rcases Nat.lt_or_ge j kl.length with hlt | hge
        · have hdrop : kl.drop j = kl[j] :: kl.drop (j + 1) :=
            List.drop_eq_getElem_cons hlt
          rw [hdrop, List.length_cons, List.take_succ_cons] at hcon
          have hc : kl[j] = c := List.head_eq_of_cons_eq hcon
          apply hcond
          refine ⟨by omega, ?_⟩
          rw [List.getD_eq_getElem kl (Char.ofNat 0) hlt]
          exact hc
        · have hdrop : kl.drop j = [] := List.drop_eq_nil_of_le hge
          rw [hdrop] at hcon
          simp at hcon
      rw [if_neg (fun hcon => hcond ⟨hcon.2.1, hcon.2.2⟩), if_neg hfalse]

/-! ### C4, stage 2: `create_blues` on the path trie computes the failure
function -/

theorem cbFold_blacks :
    ∀ (l : List Nat) (acc : TextSearcher),
      (l.foldl (fun a i => createBluesStep a (i + 1)) acc).blacks = acc.blacks := by
  intro l
  induction l with
  | nil => intro acc; rfl
  | cons i rest ih =>
    intro acc
    rw [List.foldl_cons, ih, createBluesStep_blacks]

theorem cbFold_skel :
    ∀ (l : List Nat) (acc : TextSearcher),
      (l.foldl (fun a i => createBluesStep a (i + 1)) acc).nodes.map skel =
        acc.nodes.map skel := by
  intro l
  induction l with
  | nil => intro acc; rfl
  | cons i rest ih =>
    intro acc
    rw [List.foldl_cons, ih, createBluesStep_nodes,
      map_set_preserve skel clearLetters (fun nd => rfl)]

theorem cbFold_blues {ts : TextSearcher} :
    ∀ (l : List Nat) (acc : TextSearcher),
      l.Nodup →
      acc.blacks = ts.blacks →
      (∀ i ∈ l, acc.node (i + 1) = ts.node (i + 1)) →
      (l.foldl (fun a i => createBluesStep a (i + 1)) acc).blues =
        acc.blues ++ l.filterMap (fun i =>
          Option.map (fun t => (i + 1, t))
            (findSuffixAux ts.blacks ((ts.node (i + 1)).letters.drop 1))) := by
  intro l
  induction l with
  | nil => intro acc _ _ _; simp
  | cons i rest ih =>
    intro acc hnd hbk hintact
    have hndr := List.nodup_cons.mp hnd
    rw [List.foldl_cons]
    set acc' := createBluesStep acc (i + 1) with hacc'
    have hL : (acc.nodes.getD (i + 1 - 1) (KeywordNode.new [])).letters =
        (ts.node (i + 1)).letters := by
      have h := hintact i (List.mem_cons_self i rest)
      unfold TextSearcher.node at h
      rw [h]
      rfl
    have hbk' : acc'.blacks = ts.blacks := by
      rw [hacc', createBluesStep_blacks, hbk]
    have hintact' : ∀ j ∈ rest, acc'.node (j + 1) = ts.node (j + 1) := by
      intro j hj
      have hij : i ≠ j := fun h => hndr.1 (h ▸ hj)
      unfold TextSearcher.node
      rw [hacc', createBluesStep_nodes, getD_set_ne _ _ _ _ _ (by omega)]
      have h := hintact j (List.mem_cons_of_mem i hj)
      unfold TextSearcher.node at h
      exact h
    rw [ih acc' hndr.2 hbk' hintact']
    rw [hacc', createBluesStep_blues, hL, hbk]
    rw [List.filterMap_cons, List.append_assoc]
    cases hfs : findSuffixAux ts.blacks ((ts.node (i + 1)).letters.drop 1) with
    | none => rfl
    | some t => rfl

theorem singleAdded_nodes_len (k : String) :
    (singleAdded k).nodes.length = k.toList.length + 1 := by
  unfold singleAdded
  rw [List.length_set, stateOf_nodes_len]

theorem singleAdded_node_lt (k : String) (j : Nat) (h1 : 1 ≤ j)
    (h2 : j ≤ k.toList.length) :
    (singleAdded k).node j = KeywordNode.new (k.toList.take (j - 1)) := by
  unfold singleAdded TextSearcher.node
  simp only
  rw [getD_set_ne _ _ _ _ _ (by omega)]
  exact stateOf_getD k.toList (j - 1) (by omega)

theorem singleAdded_node_top (k : String) :
    (singleAdded k).node (k.toList.length + 1) =
      { letters := k.toList, length := k.toList.length, name := k,
        is_blue := true } := by
  unfold singleAdded TextSearcher.node
  simp only [Nat.add_sub_cancel]
  rw [getD_set_self _ _ _ _ (by rw [stateOf_nodes_len]; omega)]

theorem singleAdded_letters (k : String) (j : Nat) (h1 : 1 ≤ j)
    (h2 : j ≤ k.toList.length + 1) :
    ((singleAdded k).node j).letters = k.toList.take (j - 1) := by
  rcases Nat.lt_or_ge j (k.toList.length + 1) with hlt | hge
  · rw [singleAdded_node_lt k j h1 (by omega)]
    rfl
  · have hj : j = k.toList.length + 1 := by omega
    subst hj
    rw [singleAdded_node_top]
    simp only [Nat.add_sub_cancel]
    exact (List.take_length k.toList).symm

theorem fsa_single (kl : List Char) :
    ∀ (b0 i : Nat), i ≤ kl.length → b0 ≤ i →
      findSuffixAux (stateOf kl).blacks ((kl.take i).drop (i - b0)) =
        if 1 ≤ Nat.findGreatest (fun b => borderB kl i b = true) b0 then
          some (Nat.findGreatest (fun b => borderB kl i b = true) b0 + 1)
        else none := by
  intro b0
  induction b0 with
  | zero =>
    intro i hi _
    have hdrop : (kl.take i).drop (i - 0) = [] := by
      apply List.drop_eq_nil_of_le
      rw [List.length_take]
      omega
    rw [hdrop]
    simp [findSuffixAux, Nat.findGreatest]
  | succ b0 ih =>
    intro i hi hb0
    have hlt : i - (b0 + 1) < (kl.take i).length := by
      rw [List.length_take]
      omega
    have hdrop : (kl.take i).drop (i - (b0 + 1)) =
        (kl.take i)[i - (b0 + 1)] :: (kl.take i).drop (i - (b0 + 1) + 1) :=
      List.drop_eq_getElem_cons hlt
    have harith : i - (b0 + 1) + 1 = i - b0 := by omega
    rw [harith] at hdrop
    rw [hdrop]
    simp only [findSuffixAux]
    rw [← hdrop]
    have hget := single_getNodeAux kl ((kl.take i).drop (i - (b0 + 1))) 0
      (by omega)
    simp only [Nat.zero_add, List.drop_zero] at hget
    rw [hget]
    have hslen2 : ((kl.take i).drop (i - (b0 + 1))).length = b0 + 1 := by
      rw [List.length_drop, List.length_take]
      omega
    rw [hslen2]
    by_cases hbord : borderB kl i (b0 + 1) = true
    · have hpref : kl.take (b0 + 1) = (kl.take i).drop (i - (b0 + 1)) :=
        of_decide_eq_true hbord
      rw [if_pos hpref]
      rw [if_pos (show (b0 + 1 + 1 : Nat) ≠ 0 by omega)]
      rw [Nat.findGreatest_succ, if_pos hbord]
      rw [if_pos (by omega)]
    · have hnpref : ¬(kl.take (b0 + 1) = (kl.take i).drop (i - (b0 + 1))) := by
        intro hcon
        exact hbord (decide_eq_true hcon)
      rw [if_neg hnpref]
      rw [if_neg (show ¬((0 : Nat) ≠ 0) from fun h => h rfl)]
      rw [ih i hi (by omega)]
      rw [Nat.findGreatest_succ, if_neg hbord]

theorem build_single (k : String) :
    build [(k, none)] = (singleAdded k).create_blues := by
  unfold build
  simp only [List.foldl_cons, List.foldl_nil]
  rw [single_add]

theorem single_cb_blacks (k : String) :
    (singleAdded k).create_blues.blacks = (stateOf k.toList).blacks := by
  unfold TextSearcher.create_blues
  rw [cbFold_blacks]
  rfl

theorem single_cb_skel (k : String) :
    (singleAdded k).create_blues.nodes.map skel = (singleAdded k).nodes.map skel := by
  unfold TextSearcher.create_blues
  exact cbFold_skel _ _

theorem singleTS_node_len (k : String) (j : Nat) (h1 : 1 ≤ j)
    (h2 : j ≤ k.toList.length + 1) :
    ((singleAdded k).create_blues.node j).length = j - 1 := by
  rw [(node_skel_congr (single_cb_skel k) j).1]
  rcases Nat.lt_or_ge j (k.toList.length + 1) with hlt | hge
  · rw [singleAdded_node_lt k j h1 (by omega)]
    simp only [KeywordNode.new, List.length_take]
    omega
  · have hj : j = k.toList.length + 1 := by omega
    subst hj
    rw [singleAdded_node_top]
    show k.toList.length = k.toList.length + 1 - 1
    omega

theorem singleTS_node_blue_iff (k : String) (j : Nat) (h1 : 1 ≤ j)
    (h2 : j ≤ k.toList.length + 1) :
    (((singleAdded k).create_blues.node j).is_blue = true) ↔
      j = k.toList.length + 1 := by
  rw [(node_skel_congr (single_cb_skel k) j).2.1]
  rcases Nat.lt_or_ge j (k.toList.length + 1) with hlt | hge
  · rw [singleAdded_node_lt k j h1 (by omega)]
    simp only [KeywordNode.new]
    constructor
    · intro h; exact absurd h (by simp)
    · intro h; omega
  · have hj : j = k.toList.length + 1 := by omega
    subst hj
    rw [singleAdded_node_top]
    simp

theorem singleTS_node_name_top (k : String) :
    ((singleAdded k).create_blues.node (k.toList.length + 1)).name = k := by
  rw [(node_skel_congr (single_cb_skel k) _).2.2, singleAdded_node_top]

theorem single_cb_blues (k : String) :
    (singleAdded k).create_blues.blues =
      (List.range (k.toList.length + 1)).filterMap (fun i =>
        if 1 ≤ piFn k.toList i then some (i + 1, piFn k.toList i + 1)
        else none) := by
  unfold TextSearcher.create_blues
  rw [singleAdded_nodes_len]
  rw [@cbFold_blues (singleAdded k) _ _ (List.nodup_range _) rfl
    (fun i _ => rfl)]
  have hblues : (singleAdded k).blues = [] := rfl
  rw [hblues, List.nil_append]
  apply List.filterMap_congr
  intro i hi
  have hin : i < k.toList.length + 1 := List.mem_range.mp hi
  have hblk : (singleAdded k).blacks = (stateOf k.toList).blacks := rfl
  rw [hblk, singleAdded_letters k (i + 1) (by omega) (by omega)]
  simp only [Nat.add_sub_cancel]
  cases hi0 : i with
  | zero =>
    have hnil : ((k.toList.take 0).drop 1) = [] := rfl
    rw [hnil]
    have hpi : piFn k.toList 0 = 0 := rfl
    rw [hpi, if_neg (by omega)]
    rfl
  | succ m =>
    have harg : (k.toList.take (m + 1)).drop 1 =
        (k.toList.take (m + 1)).drop ((m + 1) - ((m + 1) - 1)) := by
      congr 1
      omega
    rw [harg, fsa_single k.toList ((m + 1) - 1) (m + 1) (by omega) (by omega)]
    unfold piFn
    by_cases hge : 1 ≤ Nat.findGreatest
        (fun b => borderB k.toList (m + 1) b = true) ((m + 1) - 1)
    · rw [if_pos hge, if_pos hge]
      rfl
    · rw [if_neg hge, if_neg hge]
      rfl

theorem filterMapRange_alookup (g : Nat → Option Nat) :
    ∀ (m j : Nat),
      alookup ((List.range m).filterMap
        (fun i => Option.map (fun t => (i + 1, t)) (g i))) (j + 1) =
        if j < m then g j else none := by
  intro m
  induction m with
  | zero =>
    intro j
    rw [if_neg (by omega)]
    rfl
  | succ m ih =>
    intro j
    rw [List.range_succ, List.filterMap_append, alookup_append, ih]
    have hsingle : ∀ key : Nat, key ≠ m + 1 →
        alookup ([m].filterMap
          (fun i => Option.map (fun t => (i + 1, t)) (g i))) key = none := by
      intro key hkey
      apply alookup_eq_none
      intro e he
      simp only [List.filterMap_cons, List.filterMap_nil] at he
      cases hgm : g m with
      | none => rw [hgm] at he; exact absurd he (List.not_mem_nil e)
      | some t =>
        rw [hgm] at he
        simp only [Option.map_some', List.mem_singleton] at he
        subst he
        exact fun hcon => hkey hcon.symm
    by_cases hj : j < m
    · rw [if_pos hj, if_pos (by omega)]
      cases hg : g j with
      | some v => rfl
      | none =>
        exact hsingle (j + 1) (by omega)
    · rw [if_neg hj]
      by_cases hjm : j = m
      · subst hjm
        rw [if_pos (by omega)]
        simp only [List.filterMap_cons, List.filterMap_nil]
        cases hgm : g j with
        | none => rfl
        | some t =>
          simp only [Option.map_some']
          unfold alookup
          rw [if_pos rfl]
      · rw [if_neg (by omega)]
        exact hsingle (j + 1) (by omega)

theorem singleTS_blue_lookup (k : String) (j : Nat) (hj : j ≤ k.toList.length) :
    alookup (singleAdded k).create_blues.blues (j + 1) =
      if 1 ≤ piFn k.toList j then some (piFn k.toList j + 1) else none := by
  rw [single_cb_blues]
  have h := filterMapRange_alookup
    (fun i => if 1 ≤ piFn k.toList i then some (piFn k.toList i + 1) else none)
    (k.toList.length + 1) j
  have harg : ((List.range (k.toList.length + 1)).filterMap (fun i =>
        Option.map (fun t => (i + 1, t))
          (if 1 ≤ piFn k.toList i then some (piFn k.toList i + 1) else none))) =
      ((List.range (k.toList.length + 1)).filterMap (fun i =>
        if 1 ≤ piFn k.toList i then some (i + 1, piFn k.toList i + 1)
        else none)) := by
    apply List.filterMap_congr
    intro i _
    by_cases hge : 1 ≤ piFn k.toList i
    · rw [if_pos hge, if_pos hge]
      rfl
    · rw [if_neg hge, if_neg hge]
      rfl
  rw [harg] at h
  rw [h, if_pos (by omega)]

/-! ### C4, stage 3: suffix-prefix lengths and the failure function -/

theorem findGreatest_spec_zero (P : Nat → Prop) [DecidablePred P] (h0 : P 0) :
    ∀ n : Nat, P (Nat.findGreatest P n) := by
  intro n
  induction n with
  | zero => exact h0
  | succ n ih =>
    rw [Nat.findGreatest_succ]
    by_cases h : P (n + 1)
    · rw [if_pos h]; exact h
    · rw [if_neg h]; exact ih

theorem spB_dest {kl s : List Char} {b : Nat} (h : spB kl s b = true) :
    b ≤ s.length ∧ s.drop (s.length - b) = kl.take b :=
  of_decide_eq_true h

theorem spB_intro {kl s : List Char} {b : Nat} (h1 : b ≤ s.length)
    (h2 : s.drop (s.length - b) = kl.take b) : spB kl s b = true :=
  decide_eq_true ⟨h1, h2⟩

theorem spB_zero (kl s : List Char) : spB kl s 0 = true := by
  apply spB_intro (Nat.zero_le _)
  rw [Nat.sub_zero, List.drop_length, List.take_zero]

theorem spB_le_klen {kl s : List Char} {b : Nat} (h : spB kl s b = true) :
    b ≤ kl.length := by
  obtain ⟨h1, h2⟩ := spB_dest h
  have hlen := congrArg List.length h2
  rw [List.length_drop, List.length_take] at hlen
  omega

theorem phi_le_len (kl s : List Char) : phi kl s ≤ s.length := by
  unfold phi
  apply Nat.findGreatest_le

theorem phi_sp (kl s : List Char) : spB kl s (phi kl s) = true := by
  unfold phi
  exact findGreatest_spec_zero (fun b => spB kl s b = true)
    (spB_zero kl s) s.length

theorem sp_le_phi {kl s : List Char} {b : Nat} (h : spB kl s b = true) :
    b ≤ phi kl s := by
  unfold phi
  exact Nat.le_findGreatest (spB_dest h).1 h

theorem phi_le_klen (kl s : List Char) : phi kl s ≤ kl.length :=
  spB_le_klen (phi_sp kl s)

theorem sp_snoc (kl s : List Char) (c : Char) (b : Nat) :
    spB kl (s ++ [c]) (b + 1) = true ↔
      spB kl s b = true ∧ b < kl.length ∧ kl.getD b (Char.ofNat 0) = c := by
  constructor
  · intro h
    obtain ⟨h1, h2⟩ := spB_dest h
    rw [List.length_append, List.length_singleton] at h1 h2
    have hb : b ≤ s.length := by omega
    have hbn : b + 1 ≤ kl.length := spB_le_klen h
    have hdrop : (s ++ [c]).drop (s.length + 1 - (b + 1)) =
        s.drop (s.length - b) ++ [c] := by
      have : s.length + 1 - (b + 1) = s.length - b := by omega
      rw [this, List.drop_append_of_le_length (by omega)]
    rw [hdrop] at h2
    have htake : kl.take (b + 1) = kl.take b ++ [kl[b]] := by
      rw [← List.take_concat_get kl b (by omega), List.concat_eq_append]
    rw [htake] at h2
    have hinj := List.append_inj h2 (by
      rw [List.length_drop, List.length_take]
      omega)
    have hc : c = kl[b] := by
      have := hinj.2
      simpa using this
    refine ⟨spB_intro hb hinj.1, by omega, ?_⟩
    rw [List.getD_eq_getElem kl (Char.ofNat 0) (by omega)]
    exact hc.symm
  · rintro ⟨hsp, hbn, hc⟩
    obtain ⟨h1, h2⟩ := spB_dest hsp
    apply spB_intro (by
      rw [List.length_append, List.length_singleton]
      omega)
    rw [List.length_append, List.length_singleton]
    have harith : s.length + 1 - (b + 1) = s.length - b := by omega
    rw [harith, List.drop_append_of_le_length (by omega), h2]
    rw [← List.take_concat_get kl b (by omega), List.concat_eq_append]
    congr 1
    rw [← List.getD_eq_getElem kl (Char.ofNat 0) (by omega)]
    rw [hc]

theorem borderB_dest {kl : List Char} {i b : Nat} (h : borderB kl i b = true) :
    kl.take b = (kl.take i).drop (i - b) :=
  of_decide_eq_true h

theorem borderB_intro {kl : List Char} {i b : Nat}
    (h : kl.take b = (kl.take i).drop (i - b)) : borderB kl i b = true :=
  decide_eq_true h

theorem borderB_zero (kl : List Char) (i : Nat) : borderB kl i 0 = true := by
  apply borderB_intro
  rw [List.take_zero, Nat.sub_zero]
  symm
  apply List.drop_eq_nil_of_le
  rw [List.length_take]
  omega

theorem piFn_le (kl : List Char) (i : Nat) : piFn kl i ≤ i - 1 := by
  unfold piFn
  apply Nat.findGreatest_le

theorem piFn_border (kl : List Char) (i : Nat) :
    borderB kl i (piFn kl i) = true := by
  unfold piFn
  exact findGreatest_spec_zero (fun b => borderB kl i b = true)
    (borderB_zero kl i) (i - 1)

theorem border_le_piFn {kl : List Char} {i b : Nat}
    (hb : borderB kl i b = true) (hlt : b ≤ i - 1) : b ≤ piFn kl i := by
  unfold piFn
  exact Nat.le_findGreatest hlt hb

theorem sp_sp_border {kl s : List Char} {b m : Nat}
    (hb : spB kl s b = true) (hm : spB kl s m = true) (hle : b ≤ m) :
    borderB kl m b = true := by
  obtain ⟨hb1, hb2⟩ := spB_dest hb
  obtain ⟨hm1, hm2⟩ := spB_dest hm
  apply borderB_intro
  rw [← hm2, List.drop_drop]
  have harith : s.length - m + (m - b) = s.length - b := by omega
  rw [harith, hb2]

theorem sp_of_border {kl s : List Char} {m b : Nat}
    (hm : spB kl s m = true) (hb : borderB kl m b = true) (hle : b ≤ m) :
    spB kl s b = true := by
  obtain ⟨hm1, hm2⟩ := spB_dest hm
  apply spB_intro (by omega)
  rw [borderB_dest hb, ← hm2, List.drop_drop]
  congr 1
  omega

/-! ### C4, stage 4: one character step of the single-keyword matcher -/

theorem stepChar_single (k : String) (hk : k.toList ≠ []) (s : List Char)
    (c : Char) :
    ∀ (fuel m : Nat),
      m ≤ s.length → m ≤ k.toList.length →
      spB k.toList s m = true →
      (∀ b, spB k.toList (s ++ [c]) b = true → b ≤ m + 1) →
      m + 2 ≤ fuel →
      stepChar (singleAdded k).create_blues fuel (m + 1) (s.length + 1) c =
        some (phi k.toList (s ++ [c]) + 1,
          if phi k.toList (s ++ [c]) = k.toList.length then
            [(k, s.length + 1 - k.toList.length, s.length + 1)] else []) := by
  intro fuel
  induction fuel with
  | zero => intro m _ _ _ _ hf; omega
  | succ f ih =>
    intro m hms hmn hsp hbound hf
    have hn1 : 1 ≤ k.toList.length := List.length_pos.mpr hk
    have hblk : (singleAdded k).create_blues.blacks = (stateOf k.toList).blacks :=
      single_cb_blacks k
    by_cases hext : m + 1 ≤ k.toList.length ∧ k.toList.getD m (Char.ofNat 0) = c
    · have hlku : alookup (singleAdded k).create_blues.blacks (m + 1, c) =
          some (m + 1 + 1) := by
        rw [hblk, single_black_lookup]
        rw [if_pos ⟨by omega, hext.1, by
          rw [Nat.add_sub_cancel]
          exact hext.2⟩]
      have hmv : (singleAdded k).create_blues.move_front (m + 1) c =
          (m + 1 + 1, true) := by
        unfold TextSearcher.move_front
        rw [hlku]
      have hphi : phi k.toList (s ++ [c]) = m + 1 := by
        have hle : phi k.toList (s ++ [c]) ≤ m + 1 := hbound _ (phi_sp _ _)
        have hge : m + 1 ≤ phi k.toList (s ++ [c]) :=
          sp_le_phi ((sp_snoc _ _ _ _).mpr ⟨hsp, by omega, hext.2⟩)
        omega
      simp only [stepChar, hmv, eq_self_iff_true, if_true]
      rw [hphi]
      by_cases hyes : m + 1 = k.toList.length
      · have hidx : m + 1 + 1 = k.toList.length + 1 := by omega
        have hblue : ((singleAdded k).create_blues.node (m + 1 + 1)).is_blue
            = true := by
          exact (singleTS_node_blue_iff k (m + 1 + 1) (by omega)
            (by omega)).mpr hidx
        rw [if_pos hblue, if_pos hyes]
        rw [hidx, singleTS_node_name_top k]
        have hlen : ((singleAdded k).create_blues.node
            (k.toList.length + 1)).length = k.toList.length := by
          rw [singleTS_node_len k (k.toList.length + 1) (by omega) (le_refl _)]
          omega
        rw [hlen]
      · have hnb : ¬(((singleAdded k).create_blues.node (m + 1 + 1)).is_blue
            = true) := by
          intro hb
          have := (singleTS_node_blue_iff k (m + 1 + 1) (by omega)
            (by omega)).mp hb
          omega
        rw [if_neg hnb, if_neg hyes]
    · have hlku : alookup (singleAdded k).create_blues.blacks (m + 1, c) =
          none := by
        rw [hblk, single_black_lookup]
        rw [if_neg (fun hcon => hext ⟨hcon.2.1, by
          have h := hcon.2.2
          rw [Nat.add_sub_cancel] at h
          exact h⟩)]
      have hF : ∀ b, spB k.toList (s ++ [c]) b = true → b ≤ m := by
        intro b hb
        have h1 := hbound b hb
        rcases Nat.lt_or_ge b (m + 1) with h | h
        · omega
        · have hbm : b = m + 1 := by omega
          subst hbm
          obtain ⟨hsp', hlt', hc'⟩ := (sp_snoc _ _ _ _).mp hb
          exact absurd ⟨by omega, hc'⟩ hext
      have hRec : ∀ b, spB k.toList (s ++ [c]) b = true →
          b ≤ piFn k.toList m + 1 := by
        intro b hb
        cases b with
        | zero => omega
        | succ b' =>
          have hb1 : b' + 1 ≤ m := hF _ hb
          obtain ⟨hspb', _, _⟩ := (sp_snoc _ _ _ _).mp hb
          have hbord := sp_sp_border hspb' hsp (by omega)
          have := border_le_piFn hbord (by omega)
          omega
      by_cases hpi : 1 ≤ piFn k.toList m
      · have hblu : alookup (singleAdded k).create_blues.blues (m + 1) =
            some (piFn k.toList m + 1) := by
          rw [singleTS_blue_lookup k m hmn, if_pos hpi]
        have hmv : (singleAdded k).create_blues.move_front (m + 1) c =
            (piFn k.toList m + 1, false) := by
          unfold TextSearcher.move_front
          rw [hlku, hblu]
        have hpile := piFn_le k.toList m
        have hsp' : spB k.toList s (piFn k.toList m) = true :=
          sp_of_border hsp (piFn_border _ _) (by omega)
        have hrec := ih (piFn k.toList m) (by omega) (by omega) hsp' hRec
          (by omega)
        have hnb : ¬(((singleAdded k).create_blues.node
            (piFn k.toList m + 1)).is_blue = true) := by
          intro hb
          have := (singleTS_node_blue_iff k _ (by omega) (by omega)).mp hb
          omega
        simp only [stepChar, hmv, Bool.false_eq_true, if_false, if_neg hnb]
        rw [hrec]
        simp
      · have hblu : alookup (singleAdded k).create_blues.blues (m + 1) =
            none := by
          rw [singleTS_blue_lookup k m hmn, if_neg hpi]
        have hnb : ¬(((singleAdded k).create_blues.node 1).is_blue = true) := by
          intro hb
          have := (singleTS_node_blue_iff k 1 (le_refl 1) (by omega)).mp hb
          omega
        by_cases hm0 : m = 0
        · subst hm0
          have hmv : (singleAdded k).create_blues.move_front (0 + 1) c =
              (1, true) := by
            unfold TextSearcher.move_front
            rw [hlku, hblu]
            rfl
          have hphi0 : phi k.toList (s ++ [c]) = 0 := by
            have := hF _ (phi_sp k.toList (s ++ [c]))
            omega
          simp only [stepChar, hmv, eq_self_iff_true, if_true, if_neg hnb]
          rw [hphi0]
          rw [if_neg (by omega)]
        · have hmv : (singleAdded k).create_blues.move_front (m + 1) c =
              (1, false) := by
            unfold TextSearcher.move_front
            rw [hlku, hblu]
            rw [decide_eq_false (show ¬(m + 1 = 1) by omega)]
          have hRec0 : ∀ b, spB k.toList (s ++ [c]) b = true → b ≤ 0 + 1 := by
            intro b hb
            cases b with
            | zero => omega
            | succ b' =>
              have hb1 : b' + 1 ≤ m := hF _ hb
              obtain ⟨hspb', _, _⟩ := (sp_snoc _ _ _ _).mp hb
              have hbord := sp_sp_border hspb' hsp (by omega)
              have := border_le_piFn hbord (by omega)
              omega
          have hrec := ih 0 (by omega) (by omega) (spB_zero _ _) hRec0
            (by omega)
          simp only [Nat.zero_add] at hrec
          simp only [stepChar, hmv, Bool.false_eq_true, if_false, if_neg hnb]
          rw [hrec]
          simp

/-! ### C4, stage 5: the whole-text loop computes the KMP event stream -/

theorem single_klen_le_maxNodeLen (k : String) :
    k.toList.length ≤ maxNodeLen ((singleAdded k).create_blues) := by
  have h := le_maxNodeLen ((singleAdded k).create_blues) (k.toList.length + 1)
  rw [singleTS_node_len k (k.toList.length + 1) (by omega) (le_refl _)] at h
  omega

theorem sp_snoc_bound (kl s : List Char) (c : Char) :
    ∀ b, spB kl (s ++ [c]) b = true → b ≤ phi kl s + 1 := by
  intro b hb
  cases b with
  | zero => omega
  | succ b' =>
    obtain ⟨hsp', _, _⟩ := (sp_snoc _ _ _ _).mp hb
    have := sp_le_phi hsp'
    omega

theorem matchAux_single (k : String) (hk : k.toList ≠ []) :
    ∀ (rest s : List Char),
      matchAux (singleAdded k).create_blues
        ((singleAdded k).create_blues.stepFuel) rest
        (phi k.toList s + 1) s.length =
      some (kmpEvents k.toList k s rest) := by
  intro rest
  induction rest with
  | nil => intro s; rfl
  | cons c rest ih =>
    intro s
    have hfuel : phi k.toList s + 2 ≤ (singleAdded k).create_blues.stepFuel := by
      have h1 := phi_le_klen k.toList s
      have h2 := single_klen_le_maxNodeLen k
      unfold TextSearcher.stepFuel
      omega
    have hstep := stepChar_single k hk s c
      ((singleAdded k).create_blues.stepFuel) (phi k.toList s)
      (phi_le_len k.toList s) (phi_le_klen k.toList s) (phi_sp k.toList s)
      (sp_snoc_bound k.toList s c) hfuel
    have ihs := ih (s ++ [c])
    have hlen : (s ++ [c]).length = s.length + 1 := by simp
    rw [hlen] at ihs
    simp only [matchAux, hstep, ihs, kmpEvents]

/-! ### C4, stage 6: the KMP event stream, indexed by end offsets -/

theorem kmpEvents_range (kl : List Char) (k : String) :
    ∀ (rest s : List Char),
      kmpEvents kl k s rest =
        (List.range rest.length).filterMap (fun j =>
          if phi kl ((s ++ rest).take (s.length + (j + 1))) = kl.length
          then some (k, s.length + (j + 1) - kl.length, s.length + (j + 1))
          else none) := by
  intro rest
  induction rest with
  | nil => intro s; rfl
  | cons c rest ih =>
    intro s
    have hmain :
        (List.range (c :: rest).length).filterMap (fun j =>
          if phi kl ((s ++ c :: rest).take (s.length + (j + 1))) = kl.length
          then some (k, s.length + (j + 1) - kl.length, s.length + (j + 1))
          else none) =
        (if phi kl (s ++ [c]) = kl.length
          then [(k, s.length + 1 - kl.length, s.length + 1)] else []) ++
        (List.range rest.length).filterMap (fun j =>
          if phi kl (((s ++ [c]) ++ rest).take ((s ++ [c]).length + (j + 1)))
              = kl.length
          then some (k, (s ++ [c]).length + (j + 1) - kl.length,
            (s ++ [c]).length + (j + 1))
          else none) := by
      have hsc : (s ++ c :: rest).take (s.length + 1) = s ++ [c] := by
        rw [List.take_append 1]
        rfl
      have htl : ∀ j, j ∈ List.range rest.length →
          (if phi kl ((s ++ c :: rest).take (s.length + (Nat.succ j + 1)))
              = kl.length
            then some ((k, s.length + (Nat.succ j + 1) - kl.length,
              s.length + (Nat.succ j + 1)) : Ev) else none) =
          (if phi kl (((s ++ [c]) ++ rest).take ((s ++ [c]).length + (j + 1)))
              = kl.length
            then some ((k, (s ++ [c]).length + (j + 1) - kl.length,
              (s ++ [c]).length + (j + 1)) : Ev) else none) := by
        intro j _
        rw [← List.append_cons]
        have harith : s.length + (Nat.succ j + 1) = (s ++ [c]).length + (j + 1) := by
          rw [List.length_append, List.length_singleton]
          omega
        rw [harith]
      simp only [List.length_cons, List.range_succ_eq_map, List.filterMap_cons,
        List.filterMap_map, Nat.zero_add, Function.comp_def]
      rw [hsc]
      rw [List.filterMap_congr htl]
      by_cases hc : phi kl (s ++ [c]) = kl.length
      · rw [if_pos hc, if_pos hc]
        rfl
      · rw [if_neg hc, if_neg hc]
        rfl
    simp only [kmpEvents]
    rw [ih (s ++ [c])]
    exact hmain.symm

/-! ### C4, stage 7: reindexing from end offsets to start offsets -/

theorem filterMapRange_shift {α : Type} (F : Nat → Option α) (n m : Nat)
    (hn : 1 ≤ n) (hnone : ∀ i, m < i + n → F i = none) :
    (List.range m).filterMap (fun j =>
      if n ≤ j + 1 then F (j + 1 - n) else none) =
    (List.range (m + 1)).filterMap F := by
  rcases Nat.lt_or_ge m n with hm | hm
  · have hA : ∀ j ∈ List.range m,
        (if n ≤ j + 1 then F (j + 1 - n) else none) = none := by
      intro j hj
      have := List.mem_range.mp hj
      rw [if_neg (by omega)]
    have hB : ∀ i ∈ List.range (m + 1), F i = none := by
      intro i hi
      have := List.mem_range.mp hi
      exact hnone i (by omega)
    rw [List.filterMap_eq_nil_iff.mpr hA, List.filterMap_eq_nil_iff.mpr hB]
  · have hsplit : List.range' 0 (n - 1) ++ List.range' (n - 1) (m - (n - 1)) =
        List.range m := by
      rw [List.range_eq_range']
      have h3 := List.range'_append_1 0 (n - 1) (m - (n - 1))
      rw [Nat.zero_add] at h3
      rw [h3]
      congr 1
      omega
    rw [← hsplit, List.filterMap_append]
    have hfirst : (List.range' 0 (n - 1)).filterMap (fun j =>
        if n ≤ j + 1 then F (j + 1 - n) else none) = [] := by
      apply List.filterMap_eq_nil_iff.mpr
      intro j hj
      obtain ⟨i, hi, hji⟩ := List.mem_range'.mp hj
      rw [if_neg (by omega)]
    have hsecond : (List.range' (n - 1) (m - (n - 1))).filterMap (fun j =>
        if n ≤ j + 1 then F (j + 1 - n) else none) =
        (List.range (m - (n - 1))).filterMap F := by
      rw [List.range'_eq_map_range, List.filterMap_map]
      apply List.filterMap_congr
      intro j _
      show (if n ≤ n - 1 + j + 1 then F (n - 1 + j + 1 - n) else none) = F j
      rw [if_pos (by omega)]
      congr 1
      omega
    have hthird : (List.range (m + 1)).filterMap F =
        (List.range (m - (n - 1))).filterMap F := by
      have h2 : List.range' 0 (m - (n - 1)) ++
          List.range' (m - (n - 1)) (m + 1 - (m - (n - 1))) =
          List.range (m + 1) := by
        rw [List.range_eq_range']
        have h3 := List.range'_append_1 0 (m - (n - 1)) (m + 1 - (m - (n - 1)))
        rw [Nat.zero_add] at h3
        rw [h3]
        congr 1
        omega
      rw [← h2, List.filterMap_append]
      have hnil : (List.range' (m - (n - 1)) (m + 1 - (m - (n - 1)))).filterMap F
          = [] := by
        apply List.filterMap_eq_nil_iff.mpr
        intro i hi
        obtain ⟨t, ht, hit⟩ := List.mem_range'.mp hi
        apply hnone
        omega
      rw [hnil, List.append_nil, List.range_eq_range']
    rw [hfirst, hsecond, List.nil_append, hthird]

/-- `phi` reaches the full keyword length on a prefix of the text exactly at
the right end of an occurrence of the keyword. -/
theorem phi_top_iff (kl : List Char) (letters : List Char) (e : Nat)
    (he : e ≤ letters.length) :
    phi kl (letters.take e) = kl.length ↔
      (kl.length ≤ e ∧ (letters.drop (e - kl.length)).take kl.length = kl) := by
  have hlen : (letters.take e).length = e := by
    rw [List.length_take]
    omega
  constructor
  · intro h
    have hsp : spB kl (letters.take e) kl.length = true := by
      rw [← h]
      exact phi_sp kl (letters.take e)
    obtain ⟨h1, h2⟩ := spB_dest hsp
    rw [hlen] at h1 h2
    refine ⟨h1, ?_⟩
    rw [List.take_length] at h2
    nth_rewrite 2 [← Nat.sub_add_cancel h1] at h2
    rw [← List.take_drop] at h2
    exact h2
  · intro h
    obtain ⟨h1, h2⟩ := h
    have hsp : spB kl (letters.take e) kl.length = true := by
      apply spB_intro
      · rw [hlen]; exact h1
      · rw [hlen, List.take_length]
        rw [List.take_drop, Nat.sub_add_cancel h1] at h2
        exact h2
    have hle := sp_le_phi hsp
    have hge := phi_le_klen kl (letters.take e)
    omega

/-- C4: for every non-empty keyword `k` and every text `T`, inserting only
`k` (no alias) and finalizing, whole-text match on `T` returns exactly one
event `(k, i, i + len k)` for every character offset `i` at which `k`
occurs in `T` (overlapping occurrences included, offsets counted over the
character list), in increasing order of `i`, and no other events. -/
theorem c4_single_keyword_occurrences (k T : String) (hk : k ≠ "") :
    (build [(k, none)]).match_ T =
      some ((List.range (T.toList.length + 1)).filterMap (fun i =>
        if (T.toList.drop i).take k.toList.length = k.toList
        then some (k, i, i + k.toList.length) else none)) := by
  have hkl : k.toList ≠ [] := by
    intro h
    exact hk (String.ext h)
  have hn1 : 1 ≤ k.toList.length := List.length_pos.mpr hkl
  rw [build_single]
  unfold TextSearcher.match_
  have h0 : phi k.toList [] = 0 := by
    have := phi_le_len k.toList []
    simpa using this
  have hm := matchAux_single k hkl T.toList []
  rw [h0] at hm
  simp only [Nat.zero_add, List.length_nil] at hm
  rw [hm]
  congr 1
  rw [kmpEvents_range]
  simp only [List.nil_append, List.length_nil, Nat.zero_add]
  have hnone : ∀ i, T.toList.length < i + k.toList.length →
      (if (T.toList.drop i).take k.toList.length = k.toList
        then some ((k, i, i + k.toList.length) : Ev) else none) = none := by
    intro i hi
    apply if_neg
    intro hcon
    have hlc := congrArg List.length hcon
    rw [List.length_take, List.length_drop] at hlc
    omega
  have hshift := filterMapRange_shift (fun i =>
      if (T.toList.drop i).take k.toList.length = k.toList
      then some ((k, i, i + k.toList.length) : Ev) else none)
    k.toList.length T.toList.length hn1 hnone
  rw [← hshift]
  apply List.filterMap_congr
  intro j hj
  beta_reduce
  have hjm := List.mem_range.mp hj
  by_cases hc : k.toList.length ≤ j + 1
  · rw [if_pos hc]
    have hiff := phi_top_iff k.toList T.toList (j + 1) (by omega)
    by_cases hocc : (T.toList.drop (j + 1 - k.toList.length)).take
        k.toList.length = k.toList
    · rw [if_pos hocc, if_pos (hiff.mpr ⟨hc, hocc⟩),
        Nat.sub_add_cancel hc]
    · rw [if_neg (fun hcon => hocc (hiff.mp hcon).2), if_neg hocc]
  · rw [if_neg hc]
    rw [if_neg (fun hcon =>
      hc ((phi_top_iff k.toList T.toList (j + 1) (by omega)).mp hcon).1)]

/-- Witness for C4 at the concrete keyword `ab` and text `abab`. -/
theorem c4_witness :
    ("ab" : String) ≠ "" ∧
      (build [("ab", none)]).match_ "abab" =
        some ((List.range ("abab".toList.length + 1)).filterMap (fun i =>
          if ("abab".toList.drop i).take "ab".toList.length = "ab".toList
          then some ("ab", i, i + "ab".toList.length) else none)) :=
  ⟨by decide, c4_single_keyword_occurrences "ab" "abab" (by decide)⟩

end PythonComm
